import Mathlib

/-!
Verification of the street-crossing simulation core (src/utils/simulation.py,
src/utils/graph_utils.py) against its natural-language specification.

The Python code is shallowly embedded: nodes are 4-tuples of naturals, the
networkx undirected graph is a node list plus an edge list (adjacency in edge
insertion order, as networkx iterates), Python floats are rationals, the
`random` module is an explicit stream of pre-drawn values threaded through
every function that consumes randomness, Python exceptions are an `Except`
error monad, and the two unbounded loops (the journey while-loop and the
path-enumeration recursion) take an explicit fuel argument, with `none`
meaning the fuel ran out before the source loop finished.
-/

deriving instance DecidableEq for Except

namespace StreetSim

/-- Edge type tag: `s` street-crossing (signalised), `b` block connection. -/
inductive EdgeType where
  | s : EdgeType
  | b : EdgeType
deriving DecidableEq

/-- Edge orientation tag, `'horizontal'` or `'vertical'` in the source. -/
inductive Orientation where
  | horizontal : Orientation
  | vertical : Orientation
deriving DecidableEq

/-- Move direction label, `"E"` or `"S"` in the source. -/
inductive Dir where
  | E : Dir
  | S : Dir
deriving DecidableEq

/-- A node `(r, c, dx, dy)`: big-block row/column plus local corner coordinates,
as built by `build_city_graph` in src/utils/graph_utils.py. -/
structure Node where
  r : Nat
  c : Nat
  dx : Nat
  dy : Nat
deriving DecidableEq

/-- An undirected edge with its attribute dictionary
(`edge_type`, `orientation`, `length`), as stored by `G.add_edge`. -/
structure Edge where
  u : Node
  v : Node
  edge_type : EdgeType
  orientation : Orientation
  length : Rat
deriving DecidableEq

/-- The `(edge_type, orientation)` signature of `get_edge_signature`. -/
abbrev Sig := EdgeType × Orientation

/-- A networkx `Graph`: the set of added nodes and the list of added edges,
both in insertion order (networkx preserves insertion order when iterating). -/
structure Graph where
  nodes : List Node
  edges : List Edge
deriving DecidableEq

/-- A length profile dict with keys `'vertical'` and `'horizontal'`. -/
structure LenProfile where
  vertical : Rat
  horizontal : Rat
deriving DecidableEq

/-- Python exceptions raised by the embedded code. -/
inductive PyError where
  | valueError : String → PyError
  | keyError : PyError
  | indexError : PyError
deriving DecidableEq

/-- The state of Python's `random` module, embedded as two streams of
pre-drawn values: `qs` holds the successive results of `random.random()`
(each in `[0,1)`), `ks` the successive indices drawn by `random.choice`
(an index into the sequence passed to it, reduced modulo its length). -/
structure Rng where
  qs : List Rat
  ks : List Nat
deriving DecidableEq

/-- The `signal_offsets` dict: keyed by the ordered pair
`(current_node, neighbor)` exactly as in the source. -/
abbrev OffsetMap := List ((Node × Node) × Rat)

/-- One entry of the `move_data` list built inside `choose_next_node`. -/
structure MoveInfo where
  neighbor : Node
  direction : Dir
  wait_time : Rat
  is_green : Bool
  edge_type : EdgeType
  orientation : Orientation
deriving DecidableEq

/-- The journey-result dict returned by `simulate_graph_run`. -/
structure SimResult where
  time : Rat
  path_nodes : List Node
  edge_signatures : List Sig
  success : Bool
deriving DecidableEq

/-- One record of the `all_paths` list built by `enumerate_all_paths`. -/
structure PathRec where
  nodes : List Node
  edges : List Sig
deriving DecidableEq

/-! ## Signal timing oracle (src/utils/simulation.py lines 8-17) -/

/-- Python's `x % 2` on reals: the representative of `x` modulo 2 in `[0, 2)`.
Written with the executable `Rat.floor` so that concrete runs evaluate; it
equals the mathematical `x - 2 * ⌊x / 2⌋` (lemma `pmod2_eq_floor` below). -/
def pmod2 (x : Rat) : Rat := x - 2 * ((x / 2).floor : Rat)

/-- Source `wait_time_to_green(current_t, offset)`:
`phase = (current_t + offset) % 2; return 0 if phase < 1 else 2 - phase`. -/
def wait_time_to_green (current_t offset : Rat) : Rat :=
  if pmod2 (current_t + offset) < 1 then 0 else 2 - pmod2 (current_t + offset)

/-- Source `is_signal_green(current_t, offset)`:
`phase = (current_t + offset) % 2; return phase < 1`. -/
def is_signal_green (current_t offset : Rat) : Bool :=
  decide (pmod2 (current_t + offset) < 1)

/-! ## Graph accessors -/

/-- Neighbors of `u`, in edge insertion order (networkx `G.neighbors`). -/
def neighborsOf (G : Graph) (u : Node) : List Node :=
  G.edges.filterMap (fun e =>
    if e.u = u then some e.v else if e.v = u then some e.u else none)

/-- Attribute lookup `G[u][v]` for an undirected edge, `none` when absent
(where Python would raise `KeyError`). -/
def findEdge (G : Graph) (u v : Node) : Option Edge :=
  G.edges.find? (fun e => decide ((e.u = u ∧ e.v = v) ∨ (e.u = v ∧ e.v = u)))

/-- Source `get_edge_signature(G, current_node, next_node)`. -/
def get_edge_signature (G : Graph) (u v : Node) : Option Sig :=
  (findEdge G u v).map (fun e => (e.edge_type, e.orientation))

/-- The `length` attribute of the edge between `u` and `v`. -/
def edgeLengthOf (G : Graph) (u v : Node) : Option Rat :=
  (findEdge G u v).map (fun e => e.length)

/-- The eastward condition of `get_valid_moves`:
`(c2 > c1) or (c2 == c1 and dx2 > dx1)`. -/
def isEast (cur nb : Node) : Prop :=
  cur.c < nb.c ∨ (nb.c = cur.c ∧ cur.dx < nb.dx)

/-- The southward condition of `get_valid_moves`:
`(r2 > r1) or (r2 == r1 and dy2 > dy1)`. -/
def isSouth (cur nb : Node) : Prop :=
  cur.r < nb.r ∨ (nb.r = cur.r ∧ cur.dy < nb.dy)

instance (cur nb : Node) : Decidable (isEast cur nb) := by
  unfold isEast; infer_instance

instance (cur nb : Node) : Decidable (isSouth cur nb) := by
  unfold isSouth; infer_instance

/-- Source `get_valid_moves(G, current_node)`: eastward and southward
neighbors with their direction label, `"E"` when `is_east` else `"S"`. -/
def get_valid_moves (G : Graph) (cur : Node) : List (Node × Dir) :=
  (neighborsOf G cur).filterMap (fun nb =>
    if isEast cur nb ∨ isSouth cur nb then
      some (nb, if isEast cur nb then Dir.E else Dir.S)
    else none)

/-- Source `calculate_remaining_moves(current_node, end_node)`. -/
def calculate_remaining_moves (cur endNode : Node) : Int × Int :=
  let e0 : Int := max 0 ((endNode.c : Int) - cur.c)
  let s0 : Int := max 0 ((endNode.r : Int) - cur.r)
  if cur.r = endNode.r ∧ cur.c = endNode.c then
    (e0 + (if cur.dx < endNode.dx then 1 else 0),
     s0 + (if cur.dy < endNode.dy then 1 else 0))
  else (e0, s0)

/-! ## City graph builder (src/utils/graph_utils.py lines 11-100) -/

/-- Accumulation of a Python `for i in range(k)` loop over list-producing
bodies, in ascending order of `i`. -/
def forRange (k : Nat) (f : Nat → List α) : List α :=
  match k with
  | 0 => []
  | k' + 1 => forRange k' f ++ f k'

/-- The four corner nodes of intersection `(r, c)`, in the source's
`[(0, 0), (1, 0), (0, 1), (1, 1)]` order. -/
def cornerNodes (r c : Nat) : List Node :=
  [⟨r, c, 0, 0⟩, ⟨r, c, 1, 0⟩, ⟨r, c, 0, 1⟩, ⟨r, c, 1, 1⟩]

/-- All nodes added by `build_city_graph`, in insertion order. -/
def nodesList (n m : Nat) : List Node :=
  forRange n (fun r => forRange m (fun c => cornerNodes r c))

/-- The four internal street-crossing edges of intersection `(r, c)`:
top, bottom, left, right, with lengths from the crossing profile. -/
def sEdgesAt (sl : LenProfile) (r c : Nat) : List Edge :=
  [⟨⟨r, c, 0, 0⟩, ⟨r, c, 1, 0⟩, EdgeType.s, Orientation.horizontal, sl.horizontal⟩,
   ⟨⟨r, c, 0, 1⟩, ⟨r, c, 1, 1⟩, EdgeType.s, Orientation.horizontal, sl.horizontal⟩,
   ⟨⟨r, c, 0, 0⟩, ⟨r, c, 0, 1⟩, EdgeType.s, Orientation.vertical, sl.vertical⟩,
   ⟨⟨r, c, 1, 0⟩, ⟨r, c, 1, 1⟩, EdgeType.s, Orientation.vertical, sl.vertical⟩]

/-- The block edges added while visiting intersection `(r, c)`: the two
east-west edges when `c < m - 1`, then the two north-south edges when
`r < n - 1` (natural subtraction agrees with Python here since `c, r ≥ 0`). -/
def bEdgesAt (n m : Nat) (bl : LenProfile) (r c : Nat) : List Edge :=
  (if c < m - 1 then
    [⟨⟨r, c, 1, 0⟩, ⟨r, c + 1, 0, 0⟩, EdgeType.b, Orientation.horizontal, bl.horizontal⟩,
     ⟨⟨r, c, 1, 1⟩, ⟨r, c + 1, 0, 1⟩, EdgeType.b, Orientation.horizontal, bl.horizontal⟩]
   else []) ++
  (if r < n - 1 then
    [⟨⟨r, c, 0, 1⟩, ⟨r + 1, c, 0, 0⟩, EdgeType.b, Orientation.vertical, bl.vertical⟩,
     ⟨⟨r, c, 1, 1⟩, ⟨r + 1, c, 1, 0⟩, EdgeType.b, Orientation.vertical, bl.vertical⟩]
   else [])

/-- All edges added by `build_city_graph`, in insertion order: first every
intersection's four `s` edges, then the `b` edges of the second double loop. -/
def edgesList (n m : Nat) (sl bl : LenProfile) : List Edge :=
  forRange n (fun r => forRange m (fun c => sEdgesAt sl r c)) ++
  forRange n (fun r => forRange m (fun c => bEdgesAt n m bl r c))

/-- Drawing coordinates of node `v`, from the source's `node_id` helper. -/
def posOf (n : Nat) (sl bl : LenProfile) (v : Node) : Rat × Rat :=
  let x_spacing := bl.horizontal + sl.horizontal
  let y_spacing := bl.vertical + sl.vertical
  ((v.c : Rat) * x_spacing + (v.dx : Rat) * sl.horizontal,
   ((n : Rat) - 1 - (v.r : Rat)) * y_spacing + (1 - (v.dy : Rat)) * sl.vertical)

/-- The `pos` mapping returned by `build_city_graph`, one entry per node in
insertion order. -/
def buildLayout (n m : Nat) (sl bl : LenProfile) : List (Node × (Rat × Rat)) :=
  (nodesList n m).map (fun v => (v, posOf n sl bl v))

/-- Source `build_city_graph(n, m, s_lengths, b_lengths)`, returning the
graph and the layout. -/
def build_city_graph (n m : Nat) (sl bl : LenProfile) :
    Graph × List (Node × (Rat × Rat)) :=
  (⟨nodesList n m, edgesList n m sl bl⟩, buildLayout n m sl bl)

/-! ## Randomness primitives -/

/-- Draw the next `random.random()` value (0 when the modelled stream is
exhausted; the model never relies on that default in any proof). -/
def nextQ (rng : Rng) : Rat × Rng :=
  (rng.qs.headD 0, ⟨rng.qs.tail, rng.ks⟩)

/-- Python `random.choice(seq)`: `none` on an empty sequence (where Python
raises `IndexError`), otherwise the element at the next drawn index. -/
def randChoice (l : List α) (rng : Rng) : Option (α × Rng) :=
  match l with
  | [] => none
  | h :: t => some ((h :: t).getD (rng.ks.headD 0 % (h :: t).length) h,
                    ⟨rng.qs, rng.ks.tail⟩)

/-- Lookup in the `signal_offsets` dict. -/
def omLookup (offs : OffsetMap) (k : Node × Node) : Option Rat :=
  (offs.find? (fun p => decide (p.1 = k))).map (fun p => p.2)

/-! ## Strategy policy (src/utils/simulation.py lines 64-143) -/

/-- The `move_data` construction loop of `choose_next_node`: for each valid
move read the edge signature (`KeyError` if the edge is missing), and for an
`s` edge draw-and-cache the signal offset if absent, then compute the wait
time and green state; `b` edges get wait 0 and green `true`. -/
def buildMoveData (G : Graph) (cur : Node) (t : Rat) :
    OffsetMap → Rng → List (Node × Dir) →
    Except PyError (List MoveInfo × OffsetMap × Rng)
  | offs, rng, [] => Except.ok ([], offs, rng)
  | offs, rng, (nb, d) :: rest =>
    match get_edge_signature G cur nb with
    | none => Except.error PyError.keyError
    | some (et, orient) =>
      if et = EdgeType.s then
        let (off, offs₁, rng₁) :=
          match omLookup offs (cur, nb) with
          | some off => (off, offs, rng)
          | none =>
            let (q, rng') := nextQ rng
            (q * 2, ((cur, nb), q * 2) :: offs, rng')
        match buildMoveData G cur t offs₁ rng₁ rest with
        | Except.error e => Except.error e
        | Except.ok (mds, offs₂, rng₂) =>
          Except.ok (⟨nb, d, wait_time_to_green t off, is_signal_green t off,
                      et, orient⟩ :: mds, offs₂, rng₂)
      else
        match buildMoveData G cur t offs rng rest with
        | Except.error e => Except.error e
        | Except.ok (mds, offs₂, rng₂) =>
          Except.ok (⟨nb, d, 0, true, et, orient⟩ :: mds, offs₂, rng₂)

/-- Python's `min` over a nonempty list keyed by `wait_time`: keeps the
first element attaining the minimum (replaces only on strict decrease). -/
def pyMinWait (a : MoveInfo) : List MoveInfo → MoveInfo
  | [] => a
  | x :: t => if x.wait_time < a.wait_time then pyMinWait x t else pyMinWait a t

/-- Helper shared by the strategy branches that end in `random.choice`. -/
def pickRandom (l : List MoveInfo) (offs : OffsetMap) (rng : Rng) :
    Except PyError (Option (Node × Dir) × OffsetMap × Rng) :=
  match randChoice l rng with
  | some (mi, rng') => Except.ok (some (mi.neighbor, mi.direction), offs, rng')
  | none => Except.error PyError.indexError

/-- Source `choose_next_node(G, current_node, strategy, signal_offsets,
current_time, end_node)`. Returns the chosen `(next_node, direction)` (or
`none` for the `(None, None)` dead-end return), together with the mutated
`signal_offsets` dict and random state; raises `ValueError` on an
unrecognized strategy string. -/
def choose_next_node (G : Graph) (cur : Node) (strategy : String)
    (offs : OffsetMap) (t : Rat) (endNode : Option Node) (rng : Rng) :
    Except PyError (Option (Node × Dir) × OffsetMap × Rng) :=
  let valid := get_valid_moves G cur
  if valid = [] then Except.ok (none, offs, rng)
  else
    match buildMoveData G cur t offs rng valid with
    | Except.error e => Except.error e
    | Except.ok (md, offs', rng') =>
      if strategy = "random" then pickRandom md offs' rng'
      else if strategy = "oracular" then
        match md with
        | [] => Except.error (PyError.valueError "min() arg is an empty sequence")
        | h :: tl =>
          Except.ok (some ((pyMinWait h tl).neighbor, (pyMinWait h tl).direction),
                     offs', rng')
      else if strategy = "signal_observer" then
        match md.filter (fun mi => mi.is_green) with
        | [g] => Except.ok (some (g.neighbor, g.direction), offs', rng')
        | g1 :: g2 :: gs =>
          let greens := g1 :: g2 :: gs
          match endNode with
          | some en =>
            let (eRem, sRem) := calculate_remaining_moves cur en
            if sRem < eRem then
              match greens.filter (fun mi => mi.direction = Dir.E) with
              | eg :: _ => Except.ok (some (eg.neighbor, eg.direction), offs', rng')
              | [] => pickRandom greens offs' rng'
            else if eRem < sRem then
              match greens.filter (fun mi => mi.direction = Dir.S) with
              | sg :: _ => Except.ok (some (sg.neighbor, sg.direction), offs', rng')
              | [] => pickRandom greens offs' rng'
            else pickRandom greens offs' rng'
          | none => pickRandom greens offs' rng'
        | [] =>
          match md with
          | [] => Except.error (PyError.valueError "min() arg is an empty sequence")
          | h :: tl =>
            Except.ok (some ((pyMinWait h tl).neighbor, (pyMinWait h tl).direction),
                       offs', rng')
      else if strategy = "edge" then
        match md.filter (fun mi => mi.direction = Dir.E) with
        | [] => pickRandom md offs' rng'
        | e1 :: es => pickRandom (e1 :: es) offs' rng'
      else if strategy = "alternate" then pickRandom md offs' rng'
      else Except.error (PyError.valueError ("Unknown strategy: " ++ strategy))

/-! ## Journey simulator (src/utils/simulation.py lines 146-186) -/

/-- The while-loop of `simulate_graph_run`, with fuel: `some` when the loop
reaches its exit (arrival at `endNode`, or the `break` on a dead end) within
`fuel` iterations, `none` when the fuel is exhausted first. -/
def simAux (G : Graph) (endNode : Node) (strategy : String) :
    Nat → Node → Rat → List Node → List Sig → OffsetMap → Rng →
    Except PyError (Option SimResult)
  | 0, cur, t, path, sigs, _, _ =>
    if cur = endNode then Except.ok (some ⟨t, path, sigs, true⟩) else Except.ok none
  | fuel + 1, cur, t, path, sigs, offs, rng =>
    if cur = endNode then Except.ok (some ⟨t, path, sigs, true⟩)
    else
      match choose_next_node G cur strategy offs t (some endNode) rng with
      | Except.error e => Except.error e
      | Except.ok (none, _, _) =>
        Except.ok (some ⟨t, path, sigs, decide (cur = endNode)⟩)
      | Except.ok (some (nb, _), offs', rng') =>
        match get_edge_signature G cur nb with
        | none => Except.error PyError.keyError
        | some (et, orient) =>
          match (if et = EdgeType.s then omLookup offs' (cur, nb) else some 0) with
          | none => Except.error PyError.keyError
          | some off =>
            let wait := if et = EdgeType.s then wait_time_to_green t off else 0
            simAux G endNode strategy fuel nb (t + wait + 1) (path ++ [nb])
              (sigs ++ [(et, orient)]) offs' rng'

/-- Source `simulate_graph_run(G, start_node, end_node, strategy)`, started
with time 0, path `[start_node]`, empty signatures and an empty
`signal_offsets` cache. -/
def simulate_graph_run (G : Graph) (start endNode : Node) (strategy : String)
    (rng : Rng) (fuel : Nat) : Except PyError (Option SimResult) :=
  simAux G endNode strategy fuel start 0 [start] [] [] rng

/-! ## Path enumerator (src/utils/simulation.py lines 199-219) -/

/-- The recursive DFS `find_paths_recursive`, with fuel. `none` means the
fuel ran out (or an edge attribute lookup failed, which Python would raise
on; both are shown unreachable on built graphs). The returned list is in the
source's DFS order. -/
def enumAux (G : Graph) (endNode : Node) :
    Nat → Node → List Node → List Sig → Option (List PathRec)
  | 0, _, _, _ => none
  | fuel + 1, cur, path, sigs =>
    if cur = endNode then some [⟨path, sigs⟩]
    else
      (get_valid_moves G cur).foldr
        (fun nbd acc => do
          let sg ← get_edge_signature G cur nbd.1
          let first ← enumAux G endNode fuel nbd.1 (path ++ [nbd.1]) (sigs ++ [sg])
          let rest ← acc
          some (first ++ rest))
        (some [])

/-- Source `enumerate_all_paths(G, start_node, end_node)`. The Python
recursion carries no fuel; `G.edges.length + 1` is enough on every built
graph (proved below), making the embedding total there. -/
def enumerate_all_paths (G : Graph) (start endNode : Node) :
    Option (List PathRec) :=
  enumAux G endNode (G.edges.length + 1) start [start] []

/-- Source `path_signature(edge_list)`: the hashable signature key. -/
def path_signature (edge_list : List Sig) : List Sig := edge_list

/-! ## Monte Carlo aggregation step (src/utils/simulation.py lines 227-265) -/

/-- One value of the `path_lookup` dict. -/
structure PathInfo where
  index : Nat
  nodes : List Node
  edges : List Sig
  edge_count : Nat
  times : List Rat
  frequency : Nat
deriving DecidableEq

/-- The `path_lookup` dict, as an association list in insertion order. -/
abbrev Lookup := List (List Sig × PathInfo)

/-- Python dict read `d.get(k)`. -/
def dictGet (lk : Lookup) (k : List Sig) : Option PathInfo :=
  (lk.find? (fun p => decide (p.1 = k))).map (fun p => p.2)

/-- Python dict write `d[k] = v`: overwrite in place, else append. -/
def dictSet (lk : Lookup) (k : List Sig) (v : PathInfo) : Lookup :=
  if lk.any (fun p => decide (p.1 = k)) then
    lk.map (fun p => if p.1 = k then (k, v) else p)
  else lk ++ [(k, v)]

/-- The `path_lookup` pre-population loop of `analyze_random_strategy_paths`
(lines 234-244): one zero-frequency record per enumerated path. -/
def initPathLookup (allPaths : List PathRec) : Lookup :=
  (allPaths.enum).foldl
    (fun lk ip =>
      dictSet lk (path_signature ip.2.edges)
        ⟨ip.1, ip.2.nodes, ip.2.edges, ip.2.edges.length, [], 0⟩)
    []

/-- The per-journey folding step of the simulation loop of
`analyze_random_strategy_paths` (lines 248-254). The second component is
the console output the loop body emits for this journey: the source prints
nothing inside the loop, in every branch, so it is always `[]`. -/
def recordResult (lk : Lookup) (res : SimResult) : Lookup × List String :=
  if res.success then
    let sig := path_signature res.edge_signatures
    match dictGet lk sig with
    | some info =>
      (dictSet lk sig
        { info with times := info.times ++ [res.time],
                    frequency := info.frequency + 1 }, [])
    | none => (lk, [])
  else (lk, [])

/-! ## The named strategy variants -/

/-- Modelled from the spec: the module `utils/strategies.py` defining the
`Strategies` enumeration is absent from the sources (only its importers are
present). Spec section 4.3 fixes five named variants, two of them with
aliases: `random`, `oracular` / `oracular_random`,
`option_maximizer` / `signal_observer`, `edge`, `alternate`. -/
inductive Strategies where
  | random : Strategies
  | oracular : Strategies
  | oracular_random : Strategies
  | signal_observer : Strategies
  | option_maximizer : Strategies
  | edge : Strategies
  | alternate : Strategies
deriving DecidableEq

/-- Modelled from the spec: the strategy string each `Strategies` member
compares equal to in `choose_next_node`'s dispatch; the spec names
`oracular_random` as an alias of `oracular` and `option_maximizer` as an
alias of `signal_observer`. -/
def strategyStringOf : Strategies → String
  | Strategies.random => "random"
  | Strategies.oracular => "oracular"
  | Strategies.oracular_random => "oracular"
  | Strategies.signal_observer => "signal_observer"
  | Strategies.option_maximizer => "signal_observer"
  | Strategies.edge => "edge"
  | Strategies.alternate => "alternate"

/-- The strategy strings `choose_next_node` recognizes. -/
def recognizedStrategies : List String :=
  ["random", "oracular", "signal_observer", "edge", "alternate"]

/-! ## Lemmas about the timing oracle -/

theorem pmod2_eq_floor (x : Rat) : pmod2 x = x - 2 * (⌊x / 2⌋ : Rat) := by
  have h : ⌊x / 2⌋ = (x / 2).floor := by rw [Rat.floor_def, Rat.floor_def']
  rw [pmod2, h]

theorem pmod2_nonneg (x : Rat) : 0 ≤ pmod2 x := by
  rw [pmod2_eq_floor]
  have h := Int.fract_nonneg (x / 2)
  have h2 : Int.fract (x / 2) = x / 2 - ⌊x / 2⌋ := rfl
  rw [h2] at h
  nlinarith [h]

theorem pmod2_lt_two (x : Rat) : pmod2 x < 2 := by
  rw [pmod2_eq_floor]
  have h := Int.fract_lt_one (x / 2)
  have h2 : Int.fract (x / 2) = x / 2 - ⌊x / 2⌋ := rfl
  rw [h2] at h
  nlinarith [h]

theorem pmod2_add_two_int (x : Rat) (k : ℤ) : pmod2 (x + 2 * k) = pmod2 x := by
  rw [pmod2_eq_floor, pmod2_eq_floor]
  have h : (x + 2 * k) / 2 = x / 2 + k := by ring
  rw [h, Int.floor_add_int]
  push_cast
  ring

theorem pmod2_self_sub (x : Rat) : x - pmod2 x = 2 * ⌊x / 2⌋ := by
  rw [pmod2_eq_floor]; ring

theorem pmod2_eq_self {x : Rat} (h0 : 0 ≤ x) (h2 : x < 2) : pmod2 x = x := by
  rw [pmod2_eq_floor]
  have : ⌊x / 2⌋ = 0 := by
    apply Int.floor_eq_zero_iff.2
    constructor
    · simpa using by positivity
    · simpa using by linarith
  rw [this]; ring

theorem is_signal_green_iff (t offset : Rat) :
    is_signal_green t offset = true ↔ pmod2 (t + offset) < 1 := by
  simp [is_signal_green]

/-- C2: for every time `t ≥ 0` and offset in `[0, 2)`, the wait time is
non-negative, the signal is green exactly when the wait time is zero, and
the wait time is the minimal non-negative delay `d` with the signal green at
`t + d`. -/
theorem wait_time_to_green_spec (t offset : Rat)
    (ht : 0 ≤ t) (ho : 0 ≤ offset) (ho2 : offset < 2) :
    0 ≤ wait_time_to_green t offset ∧
    (is_signal_green t offset = true ↔ wait_time_to_green t offset = 0) ∧
    is_signal_green (t + wait_time_to_green t offset) offset = true ∧
    (∀ d : Rat, 0 ≤ d → is_signal_green (t + d) offset = true →
      wait_time_to_green t offset ≤ d) := by
  set y := t + offset with hy
  have hnn := pmod2_nonneg y
  have hlt := pmod2_lt_two y
  by_cases hc : pmod2 y < 1
  · refine ⟨?_, ?_, ?_, ?_⟩
    · rw [wait_time_to_green, if_pos hc]
    · rw [wait_time_to_green, if_pos hc]
      simp [is_signal_green_iff, ← hy, hc]
    · rw [wait_time_to_green, if_pos hc]
      have : t + 0 + offset = y := by rw [hy]; ring
      rw [is_signal_green_iff, this]
      exact hc
    · intro d hd _
      rw [wait_time_to_green, if_pos hc]
      exact hd
  · have hge : 1 ≤ pmod2 y := le_of_not_lt hc
    refine ⟨?_, ?_, ?_, ?_⟩
    · rw [wait_time_to_green, if_neg hc]
      linarith
    · rw [wait_time_to_green, if_neg hc]
      constructor
      · intro hg
        exact absurd ((is_signal_green_iff t offset).1 hg) (by rw [← hy]; exact hc)
      · intro h0
        exact absurd h0 (by intro h; linarith [hlt, sub_eq_zero.1 (by linarith : (2 : Rat) - pmod2 y = 0)])
    · rw [wait_time_to_green, if_neg hc, is_signal_green_iff]
      have harg : t + (2 - pmod2 y) + offset = y - pmod2 y + 2 * ((1 : ℤ) : Rat) := by
        rw [hy]; push_cast; ring
      rw [harg, pmod2_self_sub]
      have h2 : (2 : Rat) * ⌊y / 2⌋ + 2 * ((1 : ℤ) : Rat) = 0 + 2 * ((⌊y / 2⌋ + 1 : ℤ) : Rat) := by
        push_cast; ring
      rw [h2, pmod2_add_two_int 0 (⌊y / 2⌋ + 1)]
      rw [show pmod2 0 = 0 by rw [pmod2_eq_self] <;> norm_num]
      norm_num
    · intro d hd hg
      rw [wait_time_to_green, if_neg hc]
      by_contra hlt2
      push_neg at hlt2
      have hdlt : pmod2 y + d < 2 := by linarith
      have harg : t + d + offset = pmod2 y + d + 2 * ((⌊y / 2⌋ : ℤ) : Rat) := by
        have := pmod2_self_sub y
        rw [hy]
        push_cast
        linarith [this]
      rw [is_signal_green_iff, harg, pmod2_add_two_int, pmod2_eq_self (by linarith) hdlt] at hg
      linarith

/-- Witness for C2 at `t = 3/2`, `offset = 1/4`. -/
theorem wait_time_to_green_spec_witness :
    0 ≤ (3 / 2 : Rat) ∧ 0 ≤ (1 / 4 : Rat) ∧ (1 / 4 : Rat) < 2 ∧
    (0 ≤ wait_time_to_green (3 / 2) (1 / 4) ∧
     (is_signal_green (3 / 2) (1 / 4) = true ↔ wait_time_to_green (3 / 2) (1 / 4) = 0) ∧
     is_signal_green (3 / 2 + wait_time_to_green (3 / 2) (1 / 4)) (1 / 4) = true ∧
     (∀ d : Rat, 0 ≤ d → is_signal_green (3 / 2 + d) (1 / 4) = true →
       wait_time_to_green (3 / 2) (1 / 4) ≤ d)) :=
  ⟨by norm_num, by norm_num, by norm_num,
   wait_time_to_green_spec (3 / 2) (1 / 4) (by norm_num) (by norm_num) (by norm_num)⟩

/-! ## Structural lemmas about the built graph -/

theorem mem_forRange {f : Nat → List α} {a : α} :
    ∀ {k : Nat}, a ∈ forRange k f ↔ ∃ i, i < k ∧ a ∈ f i
  | 0 => by simp [forRange]
  | k + 1 => by
    simp only [forRange, List.mem_append, mem_forRange (k := k)]
    constructor
    · rintro (⟨i, hi, ha⟩ | ha)
      · exact ⟨i, Nat.lt_succ_of_lt hi, ha⟩
      · exact ⟨k, Nat.lt_succ_self k, ha⟩
    · rintro ⟨i, hi, ha⟩
      rcases Nat.lt_succ_iff_lt_or_eq.1 hi with h | rfl
      · exact Or.inl ⟨i, h, ha⟩
      · exact Or.inr ha

theorem length_forRange_const {f : Nat → List α} {L : Nat}
    (h : ∀ i, (f i).length = L) : ∀ k, (forRange k f).length = k * L
  | 0 => by simp [forRange]
  | k + 1 => by
    simp [forRange, length_forRange_const h k, h k, Nat.succ_mul]

theorem nodup_forRange {f : Nat → List α}
    (h1 : ∀ i, (f i).Nodup)
    (h2 : ∀ i j a, a ∈ f i → a ∈ f j → i = j) :
    ∀ k, (forRange k f).Nodup
  | 0 => by simp [forRange]
  | k + 1 => by
    simp only [forRange]
    refine List.Nodup.append (nodup_forRange h1 h2 k) (h1 k) ?_
    intro a ha hak
    rcases mem_forRange.1 ha with ⟨i, hi, hai⟩
    exact absurd (h2 i k a hai hak) (Nat.ne_of_lt hi)

theorem mem_cornerNodes {v : Node} {r c : Nat} :
    v ∈ cornerNodes r c ↔ v.r = r ∧ v.c = c ∧ v.dx ≤ 1 ∧ v.dy ≤ 1 := by
  obtain ⟨vr, vc, vdx, vdy⟩ := v
  simp only [cornerNodes, List.mem_cons, List.not_mem_nil, or_false, Node.mk.injEq]
  omega

theorem mem_nodesList {v : Node} {n m : Nat} :
    v ∈ nodesList n m ↔ v.r < n ∧ v.c < m ∧ v.dx ≤ 1 ∧ v.dy ≤ 1 := by
  simp only [nodesList, mem_forRange, mem_cornerNodes]
  constructor
  · rintro ⟨r, hr, c, hc, rfl, rfl, h⟩
    exact ⟨hr, hc, h⟩
  · rintro ⟨hr, hc, h⟩
    exact ⟨v.r, hr, v.c, hc, rfl, rfl, h⟩

theorem nodesList_length (n m : Nat) : (nodesList n m).length = 4 * n * m := by
  have hin : ∀ r, (forRange m (fun c => cornerNodes r c)).length = m * 4 := by
    intro r
    exact length_forRange_const (fun c => by simp [cornerNodes]) m
  have := length_forRange_const (f := fun r => forRange m (fun c => cornerNodes r c)) hin n
  rw [nodesList, this]
  ring

theorem nodesList_nodup (n m : Nat) : (nodesList n m).Nodup := by
  apply nodup_forRange
  · intro r
    apply nodup_forRange
    · intro c
      simp [cornerNodes, Node.mk.injEq]
    · intro i j a hai haj
      rw [mem_cornerNodes] at hai haj
      omega
  · intro i j a hai haj
    rw [mem_forRange] at hai haj
    obtain ⟨ci, _, hai⟩ := hai
    obtain ⟨cj, _, haj⟩ := haj
    rw [mem_cornerNodes] at hai haj
    omega

/-- Global column index `2*c + dx` of a node. -/
def colOf (v : Node) : Nat := 2 * v.c + v.dx

/-- Global row index `2*r + dy` of a node. -/
def rowOf (v : Node) : Nat := 2 * v.r + v.dy

/-- The monotone measure: every valid move on a built graph increases it by 1. -/
def mNode (v : Node) : Nat := colOf v + rowOf v

/-- The endpoints a built edge can have. -/
def InBounds (n m : Nat) (v : Node) : Prop :=
  v.r < n ∧ v.c < m ∧ v.dx ≤ 1 ∧ v.dy ≤ 1

/-- Every edge the builder creates goes between in-bounds nodes and advances
exactly one of the global column and global row indices by exactly one, in
the stored `u → v` direction. -/
theorem edge_shape {n m : Nat} {sl bl : LenProfile} {e : Edge}
    (he : e ∈ edgesList n m sl bl) :
    InBounds n m e.u ∧ InBounds n m e.v ∧
    ((colOf e.v = colOf e.u + 1 ∧ rowOf e.v = rowOf e.u) ∨
     (colOf e.v = colOf e.u ∧ rowOf e.v = rowOf e.u + 1)) := by
  rcases List.mem_append.1 he with hs | hb
  · rcases mem_forRange.1 hs with ⟨r, hr, hs⟩
    rcases mem_forRange.1 hs with ⟨c, hc, hs⟩
    simp only [sEdgesAt, List.mem_cons, List.not_mem_nil, or_false] at hs
    rcases hs with rfl | rfl | rfl | rfl <;>
      simp [InBounds, colOf, rowOf, hr, hc]
  · rcases mem_forRange.1 hb with ⟨r, hr, hb⟩
    rcases mem_forRange.1 hb with ⟨c, hc, hb⟩
    rcases List.mem_append.1 hb with h1 | h1 <;>
    · split at h1 <;>
        simp only [List.mem_cons, List.not_mem_nil, or_false] at h1 <;>
        first
        | exact absurd h1 (List.not_mem_nil e)
        | (rcases h1 with rfl | rfl <;> simp [InBounds, colOf, rowOf] <;> omega)

/-! ## Valid moves -/

theorem neighborsOf_subset {G : Graph} {u v : Node} (h : v ∈ neighborsOf G u) :
    ∃ e ∈ G.edges, (e.u = u ∧ e.v = v) ∨ (e.u = v ∧ e.v = u) := by
  rcases List.mem_filterMap.1 h with ⟨e, he, hfe⟩
  refine ⟨e, he, ?_⟩
  by_cases h1 : e.u = u
  · simp only [if_pos h1, Option.some.injEq] at hfe
    exact Or.inl ⟨h1, hfe⟩
  · simp only [if_neg h1] at hfe
    by_cases h2 : e.v = u
    · simp only [if_pos h2, Option.some.injEq] at hfe
      exact Or.inr ⟨hfe, h2⟩
    · simp [if_neg h2] at hfe

theorem mem_get_valid_moves {G : Graph} {u v : Node} {d : Dir} :
    (v, d) ∈ get_valid_moves G u ↔
    v ∈ neighborsOf G u ∧ (isEast u v ∨ isSouth u v) ∧
      d = (if isEast u v then Dir.E else Dir.S) := by
  simp only [get_valid_moves, List.mem_filterMap]
  constructor
  · rintro ⟨nb, hnb, hf⟩
    by_cases hc : isEast u nb ∨ isSouth u nb
    · simp only [if_pos hc, Option.some.injEq, Prod.mk.injEq] at hf
      obtain ⟨rfl, rfl⟩ := hf
      exact ⟨hnb, hc, rfl⟩
    · simp [if_neg hc] at hf
  · rintro ⟨hnb, hor, rfl⟩
    exact ⟨v, hnb, by simp [if_pos hor]⟩

theorem findEdge_isSome_of_neighbor {G : Graph} {u v : Node}
    (h : v ∈ neighborsOf G u) : (findEdge G u v).isSome := by
  rcases neighborsOf_subset h with ⟨e, he, hor⟩
  have : ∃ e ∈ G.edges,
      (decide ((e.u = u ∧ e.v = v) ∨ (e.u = v ∧ e.v = u)) = true) := by
    refine ⟨e, he, ?_⟩
    rcases hor with ⟨h1, h2⟩ | ⟨h1, h2⟩ <;> simp [h1, h2]
  rw [findEdge, List.find?_isSome]
  exact this

theorem sig_isSome_of_valid_move {G : Graph} {u v : Node} {d : Dir}
    (h : (v, d) ∈ get_valid_moves G u) : (get_edge_signature G u v).isSome := by
  have hnb := (mem_get_valid_moves.1 h).1
  rw [get_edge_signature]
  have := findEdge_isSome_of_neighbor hnb
  rcases Option.isSome_iff_exists.1 this with ⟨e, he⟩
  simp [he]

/-- The key monotonicity fact: a valid move on a built graph goes to an
in-bounds node, advances exactly one of the global column and row indices by
one, never satisfies the eastward and southward conditions together, and its
direction label is determined by which index advanced. -/
theorem valid_move_facts {n m : Nat} {sl bl : LenProfile} {u v : Node} {d : Dir}
    (h : (v, d) ∈ get_valid_moves (build_city_graph n m sl bl).1 u) :
    InBounds n m u ∧ InBounds n m v ∧
    ((colOf v = colOf u + 1 ∧ rowOf v = rowOf u ∧ isEast u v ∧ ¬ isSouth u v ∧ d = Dir.E) ∨
     (colOf v = colOf u ∧ rowOf v = rowOf u + 1 ∧ ¬ isEast u v ∧ isSouth u v ∧ d = Dir.S)) := by
  rcases mem_get_valid_moves.1 h with ⟨hnb, hor, hd⟩
  rcases neighborsOf_subset hnb with ⟨e, he, hcase⟩
  have hshape := edge_shape he
  obtain ⟨hbu, hbv, hadv⟩ := hshape
  rcases hcase with ⟨h1, h2⟩ | ⟨h1, h2⟩
  · -- forward orientation: (u, v) = (e.u, e.v)
    subst h1; subst h2
    refine ⟨hbu, hbv, ?_⟩
    obtain ⟨_, _, hux, huy⟩ := hbu
    obtain ⟨_, _, hvx, hvy⟩ := hbv
    rcases hadv with ⟨hcol, hrow⟩ | ⟨hcol, hrow⟩
    · have heast : isEast e.u e.v := by
        unfold colOf at hcol
        unfold isEast
        omega
      have hnots : ¬ isSouth e.u e.v := by
        unfold rowOf at hrow
        unfold isSouth
        omega
      exact Or.inl ⟨hcol, hrow, heast, hnots, by rw [hd, if_pos heast]⟩
    · have hnote : ¬ isEast e.u e.v := by
        unfold colOf at hcol
        unfold isEast
        omega
      have hsouth : isSouth e.u e.v := by
        unfold rowOf at hrow
        unfold isSouth
        omega
      exact Or.inr ⟨hcol, hrow, hnote, hsouth, by rw [hd, if_neg hnote]⟩
  · -- backward orientation: (u, v) = (e.v, e.u): contradicts east-or-south
    subst h1; subst h2
    exfalso
    obtain ⟨_, _, hux, huy⟩ := hbu
    obtain ⟨_, _, hvx, hvy⟩ := hbv
    rcases hadv with ⟨hcol, hrow⟩ | ⟨hcol, hrow⟩ <;>
    · rcases hor with he' | hs'
      · unfold colOf at hcol; unfold isEast at he'; omega
      · unfold rowOf at hrow; unfold isSouth at hs'; omega

/-- A valid move on a built graph increases the monotone measure by one. -/
theorem valid_move_mNode {n m : Nat} {sl bl : LenProfile} {u v : Node} {d : Dir}
    (h : (v, d) ∈ get_valid_moves (build_city_graph n m sl bl).1 u) :
    mNode v = mNode u + 1 := by
  rcases valid_move_facts h with ⟨_, _, ⟨hc, hr, _⟩ | ⟨hc, hr, _⟩⟩ <;>
    simp [mNode, hc, hr] <;> omega

/-- In-bounds nodes have measure at most `2*n + 2*m - 2`; stated without
natural subtraction. -/
theorem mNode_le_of_inBounds {n m : Nat} {v : Node} (h : InBounds n m v) :
    mNode v + 2 ≤ 2 * n + 2 * m := by
  obtain ⟨h1, h2, h3, h4⟩ := h
  unfold mNode colOf rowOf
  omega

/-! ## Concrete fixtures used by witnesses and counterexamples -/

/-- Crossing-length profile with both lengths 3. -/
def lenThree : LenProfile := ⟨3, 3⟩

/-- Block-length profile with both lengths 1. -/
def lenOne : LenProfile := ⟨1, 1⟩

/-- The 1-by-1 city graph with crossing length 3 and block length 1. -/
def Gex : Graph := (build_city_graph 1 1 lenThree lenOne).1

/-- Corner nodes of the single intersection of `Gex`. -/
def nTL : Node := ⟨0, 0, 0, 0⟩

def nTR : Node := ⟨0, 0, 1, 0⟩

def nBL : Node := ⟨0, 0, 0, 1⟩

def nBR : Node := ⟨0, 0, 1, 1⟩

/-- A graph with a single hand-made edge whose far endpoint is both strictly
east and strictly south of the near one (never produced by the builder, but
`get_valid_moves` accepts any graph). -/
def Gdiag : Graph :=
  ⟨[⟨0, 0, 0, 0⟩, ⟨1, 1, 0, 0⟩],
   [⟨⟨0, 0, 0, 0⟩, ⟨1, 1, 0, 0⟩, EdgeType.s, Orientation.horizontal, 1⟩]⟩

/-! ## C8: the builder -/

/-- Undirected adjacency in a graph. -/
def Adjacent (G : Graph) (u v : Node) : Prop :=
  ∃ e ∈ G.edges, (e.u = u ∧ e.v = v) ∨ (e.u = v ∧ e.v = u)

/-- C8: for `n, m ≥ 1` and positive length profiles, the builder produces a
graph with exactly `4*n*m` (pairwise distinct) nodes and a symmetric edge
set, and — being a pure function of its arguments — it is deterministic and
idempotent: re-invocation with identical inputs yields equal graphs and
layouts. -/
theorem build_city_graph_spec (n m : Nat) (sl bl : LenProfile)
    (hn : 1 ≤ n) (hm : 1 ≤ m)
    (hsv : 0 < sl.vertical) (hsh : 0 < sl.horizontal)
    (hbv : 0 < bl.vertical) (hbh : 0 < bl.horizontal) :
    (build_city_graph n m sl bl).1.nodes.length = 4 * n * m ∧
    (build_city_graph n m sl bl).1.nodes.Nodup ∧
    (∀ u v, Adjacent (build_city_graph n m sl bl).1 u v ↔
            Adjacent (build_city_graph n m sl bl).1 v u) ∧
    build_city_graph n m sl bl = build_city_graph n m sl bl := by
  refine ⟨nodesList_length n m, nodesList_nodup n m, ?_, rfl⟩
  intro u v
  constructor <;>
  · rintro ⟨e, he, hor⟩
    exact ⟨e, he, hor.symm⟩

/-- Witness for C8 on the 1-by-1 grid with unit lengths. -/
theorem build_city_graph_spec_witness :
    (1 ≤ 1 ∧ 0 < lenOne.vertical ∧ 0 < lenOne.horizontal) ∧
    ((build_city_graph 1 1 lenOne lenOne).1.nodes.length = 4 * 1 * 1 ∧
     (build_city_graph 1 1 lenOne lenOne).1.nodes.Nodup ∧
     (∀ u v, Adjacent (build_city_graph 1 1 lenOne lenOne).1 u v ↔
             Adjacent (build_city_graph 1 1 lenOne lenOne).1 v u) ∧
     build_city_graph 1 1 lenOne lenOne = build_city_graph 1 1 lenOne lenOne) :=
  ⟨⟨le_refl 1, by norm_num [lenOne], by norm_num [lenOne]⟩,
   build_city_graph_spec 1 1 lenOne lenOne (le_refl 1) (le_refl 1)
     (by norm_num [lenOne]) (by norm_num [lenOne])
     (by norm_num [lenOne]) (by norm_num [lenOne])⟩

/-! ## C10: the diagonal case is unreachable on built graphs -/

/-- C10: on a built graph every edge changes exactly one of the global
column index `2*c + dx` and the global row index `2*r + dy` (by exactly
one), so no valid move satisfies the eastward and southward conditions
simultaneously and each move's direction label is uniquely determined. -/
theorem monotone_move_invariant (n m : Nat) (sl bl : LenProfile) (G : Graph)
    (hG : G = (build_city_graph n m sl bl).1) :
    (∀ e ∈ G.edges,
      ((colOf e.v = colOf e.u + 1 ∧ rowOf e.v = rowOf e.u) ∨
       (colOf e.v = colOf e.u ∧ rowOf e.v = rowOf e.u + 1))) ∧
    (∀ u v d, (v, d) ∈ get_valid_moves G u →
      ¬ (isEast u v ∧ isSouth u v) ∧
      (d = Dir.E ↔ isEast u v) ∧
      (d = Dir.S ↔ (isSouth u v ∧ ¬ isEast u v))) := by
  subst hG
  constructor
  · intro e he
    exact (edge_shape he).2.2
  · intro u v d h
    rcases valid_move_facts h with ⟨_, _, hcase⟩
    rcases hcase with ⟨_, _, he, hs, rfl⟩ | ⟨_, _, he, hs, rfl⟩
    · exact ⟨fun hand => hs hand.2, by simp [he], by simp [hs, fun _ => he]⟩
    · exact ⟨fun hand => he hand.1, by simp [he], by simp [hs, he]⟩

/-- Witness for C10 on the 1-by-1 grid: the theorem applied at `Gex`,
evaluated on its first edge and on the valid moves out of the top-left
corner. -/
theorem monotone_move_invariant_witness :
    ((∀ e ∈ Gex.edges,
      ((colOf e.v = colOf e.u + 1 ∧ rowOf e.v = rowOf e.u) ∨
       (colOf e.v = colOf e.u ∧ rowOf e.v = rowOf e.u + 1))) ∧
    (∀ u v d, (v, d) ∈ get_valid_moves Gex u →
      ¬ (isEast u v ∧ isSouth u v) ∧
      (d = Dir.E ↔ isEast u v) ∧
      (d = Dir.S ↔ (isSouth u v ∧ ¬ isEast u v)))) ∧
    (nTR, Dir.E) ∈ get_valid_moves Gex nTL :=
  ⟨monotone_move_invariant 1 1 lenThree lenOne Gex rfl, by decide⟩

/-! ## C5: the direction label of a move satisfying both conditions -/

/-- Counterexample to C5: in `Gdiag` the neighbor `(1,1,0,0)` of `(0,0,0,0)`
satisfies the eastward and the southward condition simultaneously, yet
`get_valid_moves` — which draws no randomness at all (it takes no random
state and line 39 of src/utils/simulation.py is the deterministic
`"E" if is_east else "S"`) — always labels it `E`. -/
theorem diagonal_label_deterministic_cex :
    isEast ⟨0, 0, 0, 0⟩ ⟨1, 1, 0, 0⟩ ∧ isSouth ⟨0, 0, 0, 0⟩ ⟨1, 1, 0, 0⟩ ∧
    get_valid_moves Gdiag ⟨0, 0, 0, 0⟩ = [(⟨1, 1, 0, 0⟩, Dir.E)] := by
  refine ⟨by decide, by decide, by decide⟩

/-- C5 amended: the direction label is a deterministic function of the two
node coordinates: a valid move is labeled `E` exactly when the eastward
condition holds (so a neighbor satisfying both conditions is always labeled
`E`, eastward taking precedence), and `S` exactly otherwise. -/
theorem direction_label_deterministic_amended (G : Graph) (u v : Node) (d : Dir)
    (h : (v, d) ∈ get_valid_moves G u) :
    (d = Dir.E ↔ isEast u v) ∧ (d = Dir.S ↔ (¬ isEast u v ∧ isSouth u v)) := by
  rcases mem_get_valid_moves.1 h with ⟨_, hor, rfl⟩
  by_cases he : isEast u v
  · simp [he]
  · rcases hor with h' | hs
    · exact absurd h' he
    · simp [he, hs]

/-- Witness for C5's amended statement on `Gdiag`. -/
theorem direction_label_deterministic_amended_witness :
    (⟨1, 1, 0, 0⟩, Dir.E) ∈ get_valid_moves Gdiag ⟨0, 0, 0, 0⟩ ∧
    ((Dir.E = Dir.E ↔ isEast ⟨0, 0, 0, 0⟩ (⟨1, 1, 0, 0⟩ : Node)) ∧
     (Dir.E = Dir.S ↔ (¬ isEast ⟨0, 0, 0, 0⟩ (⟨1, 1, 0, 0⟩ : Node) ∧
       isSouth ⟨0, 0, 0, 0⟩ (⟨1, 1, 0, 0⟩ : Node)))) :=
  ⟨by decide,
   direction_label_deterministic_amended Gdiag ⟨0, 0, 0, 0⟩ ⟨1, 1, 0, 0⟩ Dir.E (by decide)⟩

/-! ## Lemmas about move-data construction and strategy dispatch -/

theorem getD_mem_cons (x : α) (t : List α) (i : Nat) :
    (x :: t).getD i x ∈ x :: t := by
  rcases hq : (x :: t)[i]? with _ | b
  · rw [List.getD_eq_getElem?_getD, hq]
    exact List.mem_cons_self x t
  · rw [List.getD_eq_getElem?_getD, hq]
    exact List.getElem?_mem hq

theorem randChoice_mem {l : List α} {rng : Rng} {a : α} {rng' : Rng}
    (h : randChoice l rng = some (a, rng')) : a ∈ l := by
  match l with
  | [] => simp [randChoice] at h
  | x :: t =>
    simp only [randChoice, Option.some.injEq, Prod.mk.injEq] at h
    rw [← h.1]
    exact getD_mem_cons x t _

theorem randChoice_isSome {l : List α} {rng : Rng} (h : l ≠ []) :
    ∃ a rng', randChoice l rng = some (a, rng') := by
  match l with
  | [] => exact absurd rfl h
  | x :: t => exact ⟨_, _, rfl⟩

theorem pickRandom_mem {l : List MoveInfo} {offs : OffsetMap} {rng : Rng}
    {v : Node} {d : Dir} {offs' : OffsetMap} {rng' : Rng}
    (h : pickRandom l offs rng = Except.ok (some (v, d), offs', rng')) :
    offs' = offs ∧ ∃ mi ∈ l, v = mi.neighbor ∧ d = mi.direction := by
  unfold pickRandom at h
  rcases hrc : randChoice l rng with _ | ⟨mi, rng₂⟩ <;> rw [hrc] at h
  · simp at h
  · simp only [Except.ok.injEq, Prod.mk.injEq, Option.some.injEq] at h
    obtain ⟨⟨rfl, rfl⟩, rfl, _⟩ := h
    exact ⟨rfl, mi, randChoice_mem hrc, rfl, rfl⟩

theorem pickRandom_ok {l : List MoveInfo} {offs : OffsetMap} {rng : Rng}
    (h : l ≠ []) : ∃ out, pickRandom l offs rng = Except.ok out := by
  rcases @randChoice_isSome _ _ rng h with ⟨a, rng', hrc⟩
  exact ⟨_, by rw [pickRandom, hrc]⟩

theorem pyMinWait_mem (a : MoveInfo) : ∀ l : List MoveInfo, pyMinWait a l ∈ a :: l
  | [] => by simp [pyMinWait]
  | x :: t => by
    rw [pyMinWait]
    split
    · have := pyMinWait_mem x t
      simp only [List.mem_cons] at this ⊢
      tauto
    · have := pyMinWait_mem a t
      simp only [List.mem_cons] at this ⊢
      tauto

theorem buildMoveData_ok {G : Graph} {cur : Node} {t : Rat} :
    ∀ (moves : List (Node × Dir)) (offs : OffsetMap) (rng : Rng),
    (∀ p ∈ moves, (get_edge_signature G cur p.1).isSome) →
    ∃ out, buildMoveData G cur t offs rng moves = Except.ok out
  | [], offs, rng, _ => ⟨_, rfl⟩
  | (nb, d) :: rest, offs, rng, hsig => by
    have hhd := hsig (nb, d) (List.mem_cons_self _ _)
    rcases Option.isSome_iff_exists.1 hhd with ⟨⟨et, orient⟩, hs⟩
    have htl : ∀ p ∈ rest, (get_edge_signature G cur p.1).isSome :=
      fun p hp => hsig p (List.mem_cons_of_mem _ hp)
    simp only [buildMoveData, hs]
    by_cases het : et = EdgeType.s
    · rw [if_pos het]
      rcases buildMoveData_ok rest
        ((match omLookup offs (cur, nb) with
          | some off => (off, offs, rng)
          | none =>
            let (q, rng') := nextQ rng
            (q * 2, ((cur, nb), q * 2) :: offs, rng')).2.1)
        ((match omLookup offs (cur, nb) with
          | some off => (off, offs, rng)
          | none =>
            let (q, rng') := nextQ rng
            (q * 2, ((cur, nb), q * 2) :: offs, rng')).2.2) htl with ⟨⟨mds, o2, r2⟩, hrec⟩
      rcases homl : omLookup offs (cur, nb) with _ | off <;>
        simp only [homl] at hrec ⊢ <;> rw [hrec] <;> exact ⟨_, rfl⟩
    · rw [if_neg het]
      rcases buildMoveData_ok rest offs rng htl with ⟨⟨mds, o2, r2⟩, hrec⟩
      rw [hrec]
      exact ⟨_, rfl⟩

theorem buildMoveData_map {G : Graph} {cur : Node} {t : Rat} :
    ∀ {moves : List (Node × Dir)} {offs : OffsetMap} {rng : Rng}
      {md : List MoveInfo} {offs₂ : OffsetMap} {rng₂ : Rng},
    buildMoveData G cur t offs rng moves = Except.ok (md, offs₂, rng₂) →
    md.map (fun mi => (mi.neighbor, mi.direction)) = moves := by
  intro moves
  induction moves with
  | nil => intro offs rng md offs₂ rng₂ h; rw [buildMoveData] at h; simp at h; simp [h.1]
  | cons p rest ih =>
    intro offs rng md offs₂ rng₂ h
    obtain ⟨nb, d⟩ := p
    rcases hs : get_edge_signature G cur nb with _ | ⟨et, orient⟩ <;>
      simp only [buildMoveData, hs] at h
    · simp at h
    · by_cases het : et = EdgeType.s
      · rw [if_pos het] at h
        rcases homl : omLookup offs (cur, nb) with _ | off <;> simp only [homl] at h
        · rcases hrec : buildMoveData G cur t (((cur, nb), (nextQ rng).1 * 2) :: offs)
            (nextQ rng).2 rest with e | ⟨mds, o2, r2⟩ <;>
            simp only [nextQ] at h hrec <;> rw [hrec] at h
          · simp at h
          · simp only [Except.ok.injEq, Prod.mk.injEq] at h
            obtain ⟨h1, h2, h3⟩ := h
            subst h1
            simp [ih hrec]
        · rcases hrec : buildMoveData G cur t offs rng rest with e | ⟨mds, o2, r2⟩ <;>
            rw [hrec] at h
          · simp at h
          · simp only [Except.ok.injEq, Prod.mk.injEq] at h
            obtain ⟨h1, h2, h3⟩ := h
            subst h1
            simp [ih hrec]
      · rw [if_neg het] at h
        rcases hrec : buildMoveData G cur t offs rng rest with e | ⟨mds, o2, r2⟩ <;>
          rw [hrec] at h
        · simp at h
        · simp only [Except.ok.injEq, Prod.mk.injEq] at h
          obtain ⟨h1, h2, h3⟩ := h
          subst h1
          simp [ih hrec]

theorem omLookup_cons_self (offs : OffsetMap) (k : Node × Node) (q : Rat) :
    omLookup ((k, q) :: offs) k = some q := by
  simp [omLookup, List.find?]

theorem omLookup_cons_of_ne (offs : OffsetMap) (k k' : Node × Node) (q : Rat)
    (h : k' ≠ k) : omLookup ((k', q) :: offs) k = omLookup offs k := by
  simp [omLookup, List.find?, h]

theorem buildMoveData_preserve {G : Graph} {cur : Node} {t : Rat} :
    ∀ {moves : List (Node × Dir)} {offs : OffsetMap} {rng : Rng}
      {md : List MoveInfo} {offs₂ : OffsetMap} {rng₂ : Rng} {k : Node × Node} {q : Rat},
    buildMoveData G cur t offs rng moves = Except.ok (md, offs₂, rng₂) →
    omLookup offs k = some q → omLookup offs₂ k = some q := by
  intro moves
  induction moves with
  | nil =>
    intro offs rng md offs₂ rng₂ k q h hk
    rw [buildMoveData] at h
    simp only [Except.ok.injEq, Prod.mk.injEq] at h
    rw [← h.2.1]
    exact hk
  | cons p rest ih =>
    intro offs rng md offs₂ rng₂ k q h hk
    obtain ⟨nb, d⟩ := p
    rcases hs : get_edge_signature G cur nb with _ | ⟨et, orient⟩ <;>
      simp only [buildMoveData, hs] at h
    · simp at h
    · by_cases het : et = EdgeType.s
      · rw [if_pos het] at h
        rcases homl : omLookup offs (cur, nb) with _ | off <;> simp only [homl] at h
        · rcases hrec : buildMoveData G cur t (((cur, nb), (nextQ rng).1 * 2) :: offs)
            (nextQ rng).2 rest with e | ⟨mds, o2, r2⟩ <;>
            simp only [nextQ] at h hrec <;> rw [hrec] at h
          · simp at h
          · simp only [Except.ok.injEq, Prod.mk.injEq] at h
            obtain ⟨h1, h2, h3⟩ := h
            subst h2
            have hne : (cur, nb) ≠ k := by
              intro he
              rw [he, hk] at homl
              exact Option.noConfusion homl
            exact ih hrec (by rw [omLookup_cons_of_ne _ _ _ _ hne]; exact hk)
        · rcases hrec : buildMoveData G cur t offs rng rest with e | ⟨mds, o2, r2⟩ <;>
            rw [hrec] at h
          · simp at h
          · simp only [Except.ok.injEq, Prod.mk.injEq] at h
            obtain ⟨h1, h2, h3⟩ := h
            subst h2
            exact ih hrec hk
      · rw [if_neg het] at h
        rcases hrec : buildMoveData G cur t offs rng rest with e | ⟨mds, o2, r2⟩ <;>
          rw [hrec] at h
        · simp at h
        · simp only [Except.ok.injEq, Prod.mk.injEq] at h
          obtain ⟨h1, h2, h3⟩ := h
          subst h2
          exact ih hrec hk

theorem buildMoveData_covers {G : Graph} {cur : Node} {t : Rat} :
    ∀ {moves : List (Node × Dir)} {offs : OffsetMap} {rng : Rng}
      {md : List MoveInfo} {offs₂ : OffsetMap} {rng₂ : Rng} {v : Node} {d : Dir}
      {orient : Orientation},
    buildMoveData G cur t offs rng moves = Except.ok (md, offs₂, rng₂) →
    (v, d) ∈ moves →
    get_edge_signature G cur v = some (EdgeType.s, orient) →
    ∃ q, omLookup offs₂ (cur, v) = some q := by
  intro moves
  induction moves with
  | nil => intro _ _ _ _ _ _ _ _ _ hmem _; simp at hmem
  | cons p rest ih =>
    intro offs rng md offs₂ rng₂ v d orient h hmem hsig
    obtain ⟨nb, d'⟩ := p
    rcases hs : get_edge_signature G cur nb with _ | ⟨et, orient'⟩ <;>
      simp only [buildMoveData, hs] at h
    · simp at h
    · rcases List.mem_cons.1 hmem with heq | htail
      · -- the head move is ours: after its processing the key is present
        obtain ⟨h1, h2⟩ := Prod.mk.injEq .. ▸ heq
        subst h1
        rw [hsig] at hs
        obtain ⟨h3, _⟩ := Prod.mk.injEq .. ▸ (Option.some.injEq _ _ ▸ hs)
        subst h3
        rw [if_pos rfl] at h
        rcases homl : omLookup offs (cur, v) with _ | off <;> simp only [homl] at h
        · rcases hrec : buildMoveData G cur t (((cur, v), (nextQ rng).1 * 2) :: offs)
            (nextQ rng).2 rest with e | ⟨mds, o2, r2⟩ <;>
            simp only [nextQ] at h hrec <;> rw [hrec] at h
          · simp at h
          · simp only [Except.ok.injEq, Prod.mk.injEq] at h
            obtain ⟨h1, h2, h3⟩ := h
            subst h2
            exact ⟨_, buildMoveData_preserve hrec (omLookup_cons_self offs (cur, v) _)⟩
        · rcases hrec : buildMoveData G cur t offs rng rest with e | ⟨mds, o2, r2⟩ <;>
            rw [hrec] at h
          · simp at h
          · simp only [Except.ok.injEq, Prod.mk.injEq] at h
            obtain ⟨h1, h2, h3⟩ := h
            subst h2
            exact ⟨_, buildMoveData_preserve hrec homl⟩
      · -- our move is in the tail
        by_cases het : et = EdgeType.s
        · rw [if_pos het] at h
          rcases homl : omLookup offs (cur, nb) with _ | off <;> simp only [homl] at h
          · rcases hrec : buildMoveData G cur t (((cur, nb), (nextQ rng).1 * 2) :: offs)
              (nextQ rng).2 rest with e | ⟨mds, o2, r2⟩ <;>
              simp only [nextQ] at h hrec <;> rw [hrec] at h
            · simp at h
            · simp only [Except.ok.injEq, Prod.mk.injEq] at h
              obtain ⟨h1, h2, h3⟩ := h
              subst h2
              exact ih hrec htail hsig
          · rcases hrec : buildMoveData G cur t offs rng rest with e | ⟨mds, o2, r2⟩ <;>
              rw [hrec] at h
            · simp at h
            · simp only [Except.ok.injEq, Prod.mk.injEq] at h
              obtain ⟨h1, h2, h3⟩ := h
              subst h2
              exact ih hrec htail hsig
        · rw [if_neg het] at h
          rcases hrec : buildMoveData G cur t offs rng rest with e | ⟨mds, o2, r2⟩ <;>
            rw [hrec] at h
          · simp at h
          · simp only [Except.ok.injEq, Prod.mk.injEq] at h
            obtain ⟨h1, h2, h3⟩ := h
            subst h2
            exact ih hrec htail hsig

/-- Inversion for a successful `choose_next_node` call: whatever the
strategy, the chosen pair is one of the valid moves, and the returned
offset map is exactly the one `move_data` construction produced (the
strategy dispatch itself never touches it). -/
theorem choose_some_inv {G : Graph} {cur : Node} {strategy : String}
    {offs : OffsetMap} {t : Rat} {endNode : Option Node} {rng : Rng}
    {v : Node} {d : Dir} {offs' : OffsetMap} {rng' : Rng}
    (h : choose_next_node G cur strategy offs t endNode rng =
      Except.ok (some (v, d), offs', rng')) :
    (v, d) ∈ get_valid_moves G cur ∧
    ∃ md rng₂, buildMoveData G cur t offs rng (get_valid_moves G cur) =
      Except.ok (md, offs', rng₂) := by
  by_cases hv : get_valid_moves G cur = []
  · rw [choose_next_node, if_pos hv] at h
    simp at h
  · rw [choose_next_node, if_neg hv] at h
    rcases hbmd : buildMoveData G cur t offs rng (get_valid_moves G cur)
      with e | ⟨md, o2, r2⟩ <;> simp only [hbmd] at h
    · simp at h
    · have hmap := buildMoveData_map hbmd
      have hmd_mem : ∀ mi ∈ md, (mi.neighbor, mi.direction) ∈ get_valid_moves G cur :=
        fun mi hmi => by rw [← hmap]; exact List.mem_map_of_mem _ hmi
      have hfin : ∀ {l : List MoveInfo},
          (∀ mi ∈ l, mi ∈ md) →
          pickRandom l o2 r2 = Except.ok (some (v, d), offs', rng') →
          (v, d) ∈ get_valid_moves G cur ∧
          ∃ md' rng₂, Except.ok (ε := PyError) (md, o2, r2) =
            Except.ok (md', offs', rng₂) := by
        intro l hsub hpr
        rcases pickRandom_mem hpr with ⟨rfl, mi, hml, rfl, rfl⟩
        exact ⟨hmd_mem mi (hsub mi hml), md, r2, rfl⟩
      have hminfin : ∀ {a : MoveInfo} {tl : List MoveInfo},
          (∀ mi ∈ a :: tl, mi ∈ md) →
          Except.ok (ε := PyError) (some ((pyMinWait a tl).neighbor,
            (pyMinWait a tl).direction), o2, r2) = Except.ok (some (v, d), offs', rng') →
          (v, d) ∈ get_valid_moves G cur ∧
          ∃ md' rng₂, Except.ok (ε := PyError) (md, o2, r2) =
            Except.ok (md', offs', rng₂) := by
        intro a tl hsub heq
        simp only [Except.ok.injEq, Prod.mk.injEq, Option.some.injEq] at heq
        obtain ⟨⟨h1, h2⟩, h3, h4⟩ := heq
        subst h3
        refine ⟨?_, md, r2, rfl⟩
        have := hmd_mem _ (hsub _ (pyMinWait_mem a tl))
        rw [h1, h2] at this
        exact this
      by_cases hr : strategy = "random"
      · rw [if_pos hr] at h
        exact hfin (fun mi hmi => hmi) h
      · rw [if_neg hr] at h
        by_cases ho : strategy = "oracular"
        · rw [if_pos ho] at h
          rcases hmd0 : md with _ | ⟨a, tl⟩ <;> simp only [hmd0] at h
          · simp at h
          · exact hmd0 ▸ hminfin (fun mi hmi => hmd0 ▸ hmi) h
        · rw [if_neg ho] at h
          by_cases hso : strategy = "signal_observer"
          · rw [if_pos hso] at h
            have hgsub : ∀ mi ∈ md.filter (fun mi => mi.is_green), mi ∈ md :=
              fun mi hmi => List.mem_of_mem_filter hmi
            rcases hg : md.filter (fun mi => mi.is_green) with _ | ⟨g1, gs1⟩
            · -- no greens: fall back to min over md
              simp only [hg] at h
              rcases hmd0 : md with _ | ⟨a, tl⟩ <;> simp only [hmd0] at h
              · simp at h
              · exact hmd0 ▸ hminfin (fun mi hmi => hmd0 ▸ hmi) h
            · rcases hgs1 : gs1 with _ | ⟨g2, gs⟩ <;> rw [hgs1] at hg <;>
                simp only [hg] at h
              · -- exactly one green
                simp only [Except.ok.injEq, Prod.mk.injEq, Option.some.injEq] at h
                obtain ⟨⟨h1, h2⟩, h3, h4⟩ := h
                subst h3
                refine ⟨?_, md, r2, rfl⟩
                have hm : g1 ∈ md := hgsub g1 (by rw [hg]; exact List.mem_cons_self _ _)
                have := hmd_mem g1 hm
                rw [h1, h2] at this
                exact this
              · -- several greens
                have hsubg : ∀ mi ∈ g1 :: g2 :: gs, mi ∈ md := by
                  intro mi hmi
                  exact hgsub mi (by rw [hg]; exact hmi)
                rcases endNode with _ | en
                · exact hfin hsubg h
                · rcases hcalc : calculate_remaining_moves cur en with ⟨eRem, sRem⟩
                  simp only [hcalc] at h
                  by_cases h1 : sRem < eRem
                  · rw [if_pos h1] at h
                    rcases hfe : (g1 :: g2 :: gs).filter (fun mi => mi.direction = Dir.E)
                      with _ | ⟨eg, egs⟩ <;> simp only [hfe] at h
                    · exact hfin hsubg h
                    · simp only [Except.ok.injEq, Prod.mk.injEq, Option.some.injEq] at h
                      obtain ⟨⟨ha, hb⟩, hc, hd2⟩ := h
                      subst hc
                      refine ⟨?_, md, r2, rfl⟩
                      have hm : eg ∈ md := hsubg eg (List.mem_of_mem_filter
                        (p := fun mi => decide (mi.direction = Dir.E))
                        (by rw [hfe]; exact List.mem_cons_self _ _))
                      have := hmd_mem eg hm
                      rw [ha, hb] at this
                      exact this
                  · rw [if_neg h1] at h
                    by_cases h2 : eRem < sRem
                    · rw [if_pos h2] at h
                      rcases hfe : (g1 :: g2 :: gs).filter (fun mi => mi.direction = Dir.S)
                        with _ | ⟨sg, sgs⟩ <;> simp only [hfe] at h
                      · exact hfin hsubg h
                      · simp only [Except.ok.injEq, Prod.mk.injEq, Option.some.injEq] at h
                        obtain ⟨⟨ha, hb⟩, hc, hd2⟩ := h
                        subst hc
                        refine ⟨?_, md, r2, rfl⟩
                        have hm : sg ∈ md := hsubg sg (List.mem_of_mem_filter
                          (p := fun mi => decide (mi.direction = Dir.S))
                          (by rw [hfe]; exact List.mem_cons_self _ _))
                        have := hmd_mem sg hm
                        rw [ha, hb] at this
                        exact this
                    · rw [if_neg h2] at h
                      exact hfin hsubg h
          · rw [if_neg hso] at h
            by_cases he : strategy = "edge"
            · rw [if_pos he] at h
              rcases hfe : md.filter (fun mi => mi.direction = Dir.E)
                with _ | ⟨e1, es⟩ <;> simp only [hfe] at h
              · exact hfin (fun mi hmi => hmi) h
              · refine hfin (fun mi hmi => List.mem_of_mem_filter
                  (p := fun mi => decide (mi.direction = Dir.E)) (hfe ▸ hmi)) h
            · rw [if_neg he] at h
              by_cases ha : strategy = "alternate"
              · rw [if_pos ha] at h
                exact hfin (fun mi hmi => hmi) h
              · rw [if_neg ha] at h
                simp at h

/-- On any graph, any node and any state, `choose_next_node` never raises
when the strategy string is one of the five recognized ones. -/
theorem choose_ok_of_recognized (G : Graph) (cur : Node) (strategy : String)
    (offs : OffsetMap) (t : Rat) (endNode : Option Node) (rng : Rng)
    (hs : strategy ∈ recognizedStrategies) :
    ∃ out, choose_next_node G cur strategy offs t endNode rng = Except.ok out := by
  by_cases hv : get_valid_moves G cur = []
  · exact ⟨(none, offs, rng), by rw [choose_next_node, if_pos hv]⟩
  · have hsig : ∀ p ∈ get_valid_moves G cur, (get_edge_signature G cur p.1).isSome := by
      intro p hp
      exact sig_isSome_of_valid_move (d := p.2) (by simpa using hp)
    rcases buildMoveData_ok (t := t)
      (get_valid_moves G cur) offs rng hsig with ⟨⟨md, o2, r2⟩, hbmd⟩
    have hmd : md ≠ [] := by
      intro h0
      apply hv
      rw [← buildMoveData_map hbmd, h0]
      rfl
    obtain ⟨a, tl, rfl⟩ : ∃ a tl, md = a :: tl := by
      rcases md with _ | ⟨a, tl⟩
      · exact absurd rfl hmd
      · exact ⟨a, tl, rfl⟩
    have hpr : ∀ (l : List MoveInfo), l ≠ [] →
        ∃ out, pickRandom l o2 r2 = Except.ok out := fun l hl => pickRandom_ok hl
    simp only [recognizedStrategies, List.mem_cons, List.not_mem_nil, or_false] at hs
    rcases hs with rfl | rfl | rfl | rfl | rfl <;>
      rw [choose_next_node, if_neg hv] <;> simp only [hbmd, reduceIte]
    · -- random
      exact hpr _ hmd
    · -- oracular
      exact ⟨_, rfl⟩
    · -- signal_observer
      rcases hg : (a :: tl).filter (fun mi => mi.is_green) with _ | ⟨g1, gs1⟩ <;>
        simp only [hg]
      · exact ⟨_, rfl⟩
      · rcases hgs1 : gs1 with _ | ⟨g2, gs⟩
        · subst hgs1
          exact ⟨_, rfl⟩
        · subst hgs1
          rcases endNode with _ | en
          · exact hpr (g1 :: g2 :: gs) (by simp)
          · rcases hcalc : calculate_remaining_moves cur en with ⟨eRem, sRem⟩
            simp only [hcalc]
            by_cases h1 : sRem < eRem
            · rw [if_pos h1]
              rcases hfe : (g1 :: g2 :: gs).filter (fun mi => mi.direction = Dir.E)
                with _ | ⟨eg, egs⟩ <;> simp only [hfe]
              · exact hpr (g1 :: g2 :: gs) (by simp)
              · exact ⟨_, rfl⟩
            · rw [if_neg h1]
              by_cases h2 : eRem < sRem
              · rw [if_pos h2]
                rcases hfe : (g1 :: g2 :: gs).filter (fun mi => mi.direction = Dir.S)
                  with _ | ⟨sg, sgs⟩ <;> simp only [hfe]
                · exact hpr (g1 :: g2 :: gs) (by simp)
                · exact ⟨_, rfl⟩
              · rw [if_neg h2]
                exact hpr (g1 :: g2 :: gs) (by simp)
    · -- edge
      rcases hfe : (a :: tl).filter (fun mi => mi.direction = Dir.E)
        with _ | ⟨e1, es⟩ <;> simp only [hfe]
      · exact hpr _ hmd
      · exact hpr (e1 :: es) (by simp)
    · -- alternate
      exact hpr _ hmd

/-! ## C6: strategy dispatch and the unknown-strategy error -/

/-- Counterexample to C6 as stated: `choose_next_node` does not raise on
every unrecognized strategy value — at a dead-end node (here the bottom-right
corner of a 1-by-1 grid, which has no east/south successors) it returns
`(None, None)` before ever inspecting the strategy, even for the
unrecognized string `"bogus"`. -/
theorem unknown_strategy_dead_end_cex :
    choose_next_node Gex nBR "bogus" [] 0 none ⟨[], []⟩ =
      Except.ok (none, [], ⟨[], []⟩) ∧
    "bogus" ∉ recognizedStrategies ∧
    get_valid_moves Gex nBR = [] := by
  refine ⟨by decide, by decide, by decide⟩

/-- C6 amended: when the current node has at least one valid move,
`choose_next_node` raises `ValueError` exactly on strategy strings outside
the five recognized ones, and it recognizes (never raises on) every named
variant of the spec, including the aliases `oracular_random` (for
`oracular`) and `option_maximizer` (for `signal_observer`), whose mapping to
dispatch strings is modelled from the spec because `utils/strategies.py` is
not among the sources. With no valid move it returns `(None, None)` without
consulting the strategy at all. -/
theorem strategy_dispatch_amended (G : Graph) (cur : Node) (offs : OffsetMap)
    (t : Rat) (endNode : Option Node) (rng : Rng) :
    (∀ s : Strategies,
      ∃ out, choose_next_node G cur (strategyStringOf s) offs t endNode rng =
        Except.ok out) ∧
    (∀ strategy : String, strategy ∉ recognizedStrategies →
      get_valid_moves G cur ≠ [] →
      choose_next_node G cur strategy offs t endNode rng =
        Except.error (PyError.valueError ("Unknown strategy: " ++ strategy))) := by
  constructor
  · intro s
    exact choose_ok_of_recognized G cur (strategyStringOf s) offs t endNode rng
      (by cases s <;> decide)
  · intro strategy hstrat hv
    have hsig : ∀ p ∈ get_valid_moves G cur, (get_edge_signature G cur p.1).isSome := by
      intro p hp
      exact sig_isSome_of_valid_move (d := p.2) (by simpa using hp)
    rcases buildMoveData_ok (t := t)
      (get_valid_moves G cur) offs rng hsig with ⟨⟨md, o2, r2⟩, hbmd⟩
    simp only [recognizedStrategies, List.mem_cons, List.not_mem_nil, or_false,
      not_or] at hstrat
    obtain ⟨h1, h2, h3, h4, h5⟩ := hstrat
    rw [choose_next_node, if_neg hv]
    simp only [hbmd]
    rw [if_neg h1, if_neg h2, if_neg h3, if_neg h4, if_neg h5]

/-- Witness for C6's amended statement: the alias `option_maximizer` is
accepted at the top-left corner of the 1-by-1 grid, while the unrecognized
string `"greedy"` raises there. -/
theorem strategy_dispatch_amended_witness :
    (∃ out, choose_next_node Gex nTL (strategyStringOf Strategies.option_maximizer)
      [] 0 none ⟨[0, 0], [0]⟩ = Except.ok out) ∧
    choose_next_node Gex nTL "greedy" [] 0 none ⟨[0, 0], [0]⟩ =
      Except.error (PyError.valueError ("Unknown strategy: " ++ "greedy")) :=
  ⟨(strategy_dispatch_amended Gex nTL [] 0 none ⟨[0, 0], [0]⟩).1
      Strategies.option_maximizer,
   (strategy_dispatch_amended Gex nTL [] 0 none ⟨[0, 0], [0]⟩).2 "greedy"
      (by decide) (by decide)⟩

/-! ## C4: the oracular strategy -/

theorem pyMinWait_le_head (a : MoveInfo) :
    ∀ l : List MoveInfo, (pyMinWait a l).wait_time ≤ a.wait_time
  | [] => le_refl _
  | x :: t => by
    rw [pyMinWait]
    split
    · exact le_of_lt (lt_of_le_of_lt (pyMinWait_le_head x t) (by assumption))
    · exact pyMinWait_le_head a t

theorem pyMinWait_le (a : MoveInfo) :
    ∀ l : List MoveInfo, ∀ x ∈ a :: l, (pyMinWait a l).wait_time ≤ x.wait_time
  | [] => by
    intro x hx
    rw [List.mem_singleton.1 hx]
    exact pyMinWait_le_head a []
  | y :: t => by
    intro x hx
    rw [pyMinWait]
    rcases List.mem_cons.1 hx with hxa | hx'
    · rw [hxa]
      split
      · exact le_of_lt (lt_of_le_of_lt (pyMinWait_le_head y t) (by assumption))
      · exact pyMinWait_le_head a t
    · rcases List.mem_cons.1 hx' with hxy | hx''
      · rw [hxy]
        split
        · exact pyMinWait_le_head y t
        · exact le_trans (pyMinWait_le_head a t) (le_of_not_lt (by assumption))
      · split
        · exact pyMinWait_le y t x (List.mem_cons_of_mem _ hx'')
        · exact pyMinWait_le a t x (List.mem_cons_of_mem _ hx'')

theorem pyMinWait_first (a : MoveInfo) :
    ∀ l : List MoveInfo, ∃ pre post, a :: l = pre ++ (pyMinWait a l) :: post ∧
      ∀ y ∈ pre, (pyMinWait a l).wait_time < y.wait_time
  | [] => ⟨[], [], by simp [pyMinWait], by simp⟩
  | x :: t => by
    rw [pyMinWait]
    split
    · rcases pyMinWait_first x t with ⟨pre, post, hsplit, hpre⟩
      refine ⟨a :: pre, post, by rw [List.cons_append, ← hsplit], ?_⟩
      intro y hy
      rcases List.mem_cons.1 hy with rfl | hy'
      · exact lt_of_le_of_lt (pyMinWait_le_head x t) (by assumption)
      · exact hpre y hy'
    · rcases pyMinWait_first a t with ⟨pre, post, hsplit, hpre⟩
      rcases pre with _ | ⟨p0, pre'⟩
      · simp only [List.nil_append] at hsplit
        refine ⟨[], x :: post, ?_, by simp⟩
        rw [List.nil_append]
        have : a = pyMinWait a t := by
          have := hsplit
          exact (List.cons.injEq .. ▸ this).1
        rw [← this]
        rw [← this] at hsplit
        have htail : t = post := (List.cons.injEq .. ▸ hsplit).2
        rw [htail]
      · have h0 : p0 = a := (List.cons.injEq .. ▸ hsplit).1.symm
        have htail : t = pre' ++ pyMinWait a t :: post := (List.cons.injEq .. ▸ hsplit).2
        refine ⟨a :: x :: pre', post, ?_, ?_⟩
        · rw [List.cons_append, List.cons_append]
          conv_lhs => rw [htail]
        · intro y hy
          have hmin_a : (pyMinWait a t).wait_time < a.wait_time := by
            have := hpre p0 (List.mem_cons_self _ _)
            rw [h0] at this
            exact this
          rcases List.mem_cons.1 hy with rfl | hy'
          · exact hmin_a
          · rcases List.mem_cons.1 hy' with rfl | hy''
            · exact lt_of_lt_of_le hmin_a (le_of_not_lt (by assumption))
            · exact hpre y (List.mem_cons_of_mem _ hy'')

/-- The chosen move of a `choose_next_node` result (*None* on an error). -/
def chosenOf (x : Except PyError (Option (Node × Dir) × OffsetMap × Rng)) :
    Option (Node × Dir) :=
  match x with
  | Except.ok (mv, _, _) => mv
  | Except.error _ => none

/-- Counterexample to C4: at the top-left corner of `Gex` at time 0 with
both signal offsets drawn as 0, the oracular strategy faces two candidate
moves that are both green (the `move_data` equation below shows
`is_green = true` for both and the two neighbors are distinct), yet the
chosen move is the first green candidate under either `random.choice` index
stream `[0]` or `[1]` — a uniform choice over the two greens would pick the
second one under the stream `[1]`. The tie among greens is broken by the
fixed first-minimum rule of `min`, never randomly. -/
theorem oracular_green_tie_cex :
    buildMoveData Gex nTL 0 [] ⟨[0, 0], [0]⟩ (get_valid_moves Gex nTL) =
      Except.ok ([⟨nTR, Dir.E, 0, true, EdgeType.s, Orientation.horizontal⟩,
                  ⟨nBL, Dir.S, 0, true, EdgeType.s, Orientation.vertical⟩],
                 [((nTL, nBL), 0), ((nTL, nTR), 0)], ⟨[], [0]⟩) ∧
    chosenOf (choose_next_node Gex nTL "oracular" [] 0 (some nBR) ⟨[0, 0], [0]⟩) =
      some (nTR, Dir.E) ∧
    chosenOf (choose_next_node Gex nTL "oracular" [] 0 (some nBR) ⟨[0, 0], [1]⟩) =
      some (nTR, Dir.E) ∧
    nTR ≠ nBL := by
  refine ⟨by with_unfolding_all rfl, by with_unfolding_all rfl,
    by with_unfolding_all rfl, by decide⟩

/-- C4 amended: under the oracular strategy `choose_next_node` always picks
the candidate with minimum wait time, with ties — greens included, since
green candidates have wait 0 — broken deterministically by first minimum in
`move_data` order; the strategy dispatch consumes no randomness (the random
state returned is exactly the one `move_data` construction left). -/
theorem oracular_first_min_amended {G : Graph} {cur : Node}
    {offs : OffsetMap} {t : Rat} {endNode : Option Node} {rng : Rng}
    {v : Node} {d : Dir} {offs' : OffsetMap} {rng' : Rng}
    (h : choose_next_node G cur "oracular" offs t endNode rng =
      Except.ok (some (v, d), offs', rng')) :
    ∃ md rng₂, buildMoveData G cur t offs rng (get_valid_moves G cur) =
        Except.ok (md, offs', rng₂) ∧ rng' = rng₂ ∧
      ∃ mi pre post, md = pre ++ mi :: post ∧ v = mi.neighbor ∧ d = mi.direction ∧
        (∀ mj ∈ md, mi.wait_time ≤ mj.wait_time) ∧
        (∀ mj ∈ pre, mi.wait_time < mj.wait_time) := by
  by_cases hv : get_valid_moves G cur = []
  · rw [choose_next_node, if_pos hv] at h
    simp at h
  · rw [choose_next_node, if_neg hv] at h
    rcases hbmd : buildMoveData G cur t offs rng (get_valid_moves G cur)
      with e | ⟨md, o2, r2⟩ <;> simp only [hbmd, reduceIte] at h
    · simp at h
    · rcases md with _ | ⟨a, tl⟩
      · simp at h
      · simp only [Except.ok.injEq, Prod.mk.injEq, Option.some.injEq] at h
        obtain ⟨⟨hvv, hdd⟩, hoo, hrr⟩ := h
        refine ⟨a :: tl, rng', rfl, rfl, pyMinWait a tl, ?_⟩
        rcases pyMinWait_first a tl with ⟨pre, post, hsplit, hpre⟩
        exact ⟨pre, post, hsplit, rfl, rfl,
          fun mj hmj => pyMinWait_le a tl mj hmj, hpre⟩

/-- Witness for C4's amended statement: the oracular choice at the top-left
corner of `Gex` with both offsets drawn as 0 and choice stream `[5]`. -/
theorem oracular_first_min_amended_witness :
    ∃ md rng₂, buildMoveData Gex nTL 0 [] ⟨[0, 0], [5]⟩ (get_valid_moves Gex nTL) =
        Except.ok (md, [((nTL, nBL), 0), ((nTL, nTR), 0)], rng₂) ∧
        (⟨[], [5]⟩ : Rng) = rng₂ ∧
      ∃ mi pre post, md = pre ++ mi :: post ∧ nTR = mi.neighbor ∧
        Dir.E = mi.direction ∧
        (∀ mj ∈ md, mi.wait_time ≤ mj.wait_time) ∧
        (∀ mj ∈ pre, mi.wait_time < mj.wait_time) :=
  @oracular_first_min_amended Gex nTL [] 0 (some nBR) ⟨[0, 0], [5]⟩ nTR Dir.E
    [((nTL, nBL), 0), ((nTL, nTR), 0)] ⟨[], [5]⟩ (by with_unfolding_all rfl)

/-! ## C1: per-step time advance -/

/-- Rescale every edge length, leaving everything else unchanged. -/
def mapLengths (f : Rat → Rat) (G : Graph) : Graph :=
  ⟨G.nodes, G.edges.map (fun e => ⟨e.u, e.v, e.edge_type, e.orientation, f e.length⟩)⟩

theorem neighborsOf_mapLengths (f : Rat → Rat) (G : Graph) (u : Node) :
    neighborsOf (mapLengths f G) u = neighborsOf G u := by
  rw [neighborsOf, neighborsOf, mapLengths, List.filterMap_map]
  rfl

theorem get_valid_moves_mapLengths (f : Rat → Rat) (G : Graph) (cur : Node) :
    get_valid_moves (mapLengths f G) cur = get_valid_moves G cur := by
  rw [get_valid_moves, get_valid_moves, neighborsOf_mapLengths]

theorem get_edge_signature_mapLengths (f : Rat → Rat) (G : Graph) (u v : Node) :
    get_edge_signature (mapLengths f G) u v = get_edge_signature G u v := by
  rw [get_edge_signature, get_edge_signature, findEdge, findEdge, mapLengths,
    List.find?_map, Option.map_map]
  rfl

theorem buildMoveData_mapLengths (f : Rat → Rat) (G : Graph) (cur : Node) (t : Rat) :
    ∀ (moves : List (Node × Dir)) (offs : OffsetMap) (rng : Rng),
    buildMoveData (mapLengths f G) cur t offs rng moves =
    buildMoveData G cur t offs rng moves
  | [], _, _ => rfl
  | (nb, d) :: rest, offs, rng => by
    rw [buildMoveData, buildMoveData, get_edge_signature_mapLengths]
    rcases get_edge_signature G cur nb with _ | ⟨et, orient⟩
    · rfl
    · dsimp only
      by_cases het : et = EdgeType.s
      · rw [if_pos het]
        rcases omLookup offs (cur, nb) with _ | off <;> dsimp only [nextQ] <;>
          rw [buildMoveData_mapLengths f G cur t rest, if_pos het]
      · rw [if_neg het, buildMoveData_mapLengths f G cur t rest, if_neg het]

theorem choose_next_node_mapLengths (f : Rat → Rat) (G : Graph) (cur : Node)
    (strategy : String) (offs : OffsetMap) (t : Rat) (endNode : Option Node)
    (rng : Rng) :
    choose_next_node (mapLengths f G) cur strategy offs t endNode rng =
    choose_next_node G cur strategy offs t endNode rng := by
  rw [choose_next_node, choose_next_node, get_valid_moves_mapLengths,
    buildMoveData_mapLengths]

theorem simAux_mapLengths (f : Rat → Rat) (G : Graph) (endNode : Node)
    (strategy : String) :
    ∀ (fuel : Nat) (cur : Node) (t : Rat) (path : List Node) (sigs : List Sig)
      (offs : OffsetMap) (rng : Rng),
    simAux (mapLengths f G) endNode strategy fuel cur t path sigs offs rng =
    simAux G endNode strategy fuel cur t path sigs offs rng
  | 0, _, _, _, _, _, _ => rfl
  | fuel + 1, cur, t, path, sigs, offs, rng => by
    by_cases hend : cur = endNode
    · rw [simAux, simAux, if_pos hend, if_pos hend]
    · rw [simAux, simAux, if_neg hend, if_neg hend, choose_next_node_mapLengths]
      rcases choose_next_node G cur strategy offs t (some endNode) rng
        with e | ⟨mv, offs', rng'⟩
      · rfl
      · rcases mv with _ | ⟨nb, d⟩
        · rfl
        · dsimp only
          rw [get_edge_signature_mapLengths]
          rcases get_edge_signature G cur nb with _ | ⟨et, orient⟩
          · rfl
          · dsimp only
            rcases (if et = EdgeType.s then omLookup offs' (cur, nb) else some 0)
              with _ | off
            · rfl
            · dsimp only
              rw [simAux_mapLengths f G endNode strategy fuel]

theorem simulate_graph_run_mapLengths (f : Rat → Rat) (G : Graph)
    (start endNode : Node) (strategy : String) (rng : Rng) (fuel : Nat) :
    simulate_graph_run (mapLengths f G) start endNode strategy rng fuel =
    simulate_graph_run G start endNode strategy rng fuel := by
  rw [simulate_graph_run, simulate_graph_run, simAux_mapLengths]

/-- Counterexample to C1: on the 1-by-1 grid whose crossing edges have
length 3, a successful journey over the single crossing edge from the
top-left to the top-right corner advances elapsed time by exactly 1 second
(wait time 0 since the drawn offset is 0), not by `wait_time + length = 3`:
the source adds `wait_time + 1` (line 173, commented "crossing time
(1 second)") and never reads the edge's `length` attribute. -/
theorem step_time_ignores_length_cex :
    simulate_graph_run Gex nTL nTR "random" ⟨[0, 0], [0]⟩ 4 =
      Except.ok (some ⟨1, [nTL, nTR], [(EdgeType.s, Orientation.horizontal)], true⟩) ∧
    edgeLengthOf Gex nTL nTR = some 3 ∧
    (1 : Rat) ≠ 0 + 3 := by
  refine ⟨by with_unfolding_all rfl, by with_unfolding_all rfl, by norm_num⟩

/-- C1 amended: each simulated step advances elapsed time by
`wait_time + 1` on a crossing (`s`) edge and by exactly 1 on a block (`b`)
edge, the edge's `length` attribute playing no role — rescaling every edge
length arbitrarily leaves the whole journey result unchanged. -/
theorem step_time_advance_amended (G : Graph) (endNode : Node)
    (strategy : String) (fuel : Nat) (cur : Node) (t : Rat) (path : List Node)
    (sigs : List Sig) (offs : OffsetMap) (rng : Rng) (v : Node) (d : Dir)
    (offs' : OffsetMap) (rng' : Rng) (et : EdgeType) (orient : Orientation)
    (off : Rat)
    (hne : cur ≠ endNode)
    (hch : choose_next_node G cur strategy offs t (some endNode) rng =
      Except.ok (some (v, d), offs', rng'))
    (hsig : get_edge_signature G cur v = some (et, orient)) :
    (et = EdgeType.s → omLookup offs' (cur, v) = some off →
      simAux G endNode strategy (fuel + 1) cur t path sigs offs rng =
        simAux G endNode strategy fuel v (t + wait_time_to_green t off + 1)
          (path ++ [v]) (sigs ++ [(et, orient)]) offs' rng') ∧
    (et = EdgeType.b →
      simAux G endNode strategy (fuel + 1) cur t path sigs offs rng =
        simAux G endNode strategy fuel v (t + 0 + 1)
          (path ++ [v]) (sigs ++ [(et, orient)]) offs' rng') ∧
    (∀ f : Rat → Rat, ∀ s e : Node,
      simulate_graph_run (mapLengths f G) s e strategy rng fuel =
        simulate_graph_run G s e strategy rng fuel) := by
  refine ⟨?_, ?_, fun f s e => simulate_graph_run_mapLengths f G s e strategy rng fuel⟩
  · intro he hoff
    subst he
    rw [simAux, if_neg hne]
    simp only [hch, hsig, reduceIte, hoff]
  · intro he
    subst he
    rw [simAux, if_neg hne]
    simp only [hch, hsig]
    rw [if_neg (by decide : ¬ (EdgeType.b = EdgeType.s))]
    dsimp only
    rw [if_neg (by decide : ¬ (EdgeType.b = EdgeType.s))]

/-- Witness for C1's amended statement at the first step of a journey on
`Gex` from the top-left corner. -/
theorem step_time_advance_amended_witness :
    (EdgeType.s = EdgeType.s →
      omLookup [((nTL, nBL), 0), ((nTL, nTR), 0)] (nTL, nTR) = some 0 →
      simAux Gex nBR "random" 4 nTL 0 [nTL] [] [] ⟨[0, 0], [0]⟩ =
        simAux Gex nBR "random" 3 nTR (0 + wait_time_to_green 0 0 + 1)
          ([nTL] ++ [nTR]) ([] ++ [(EdgeType.s, Orientation.horizontal)])
          [((nTL, nBL), 0), ((nTL, nTR), 0)] ⟨[], []⟩) ∧
    (EdgeType.s = EdgeType.b →
      simAux Gex nBR "random" 4 nTL 0 [nTL] [] [] ⟨[0, 0], [0]⟩ =
        simAux Gex nBR "random" 3 nTR (0 + 0 + 1)
          ([nTL] ++ [nTR]) ([] ++ [(EdgeType.s, Orientation.horizontal)])
          [((nTL, nBL), 0), ((nTL, nTR), 0)] ⟨[], []⟩) ∧
    (∀ f : Rat → Rat, ∀ s e : Node,
      simulate_graph_run (mapLengths f Gex) s e "random" ⟨[0, 0], [0]⟩ 3 =
        simulate_graph_run Gex s e "random" ⟨[0, 0], [0]⟩ 3) :=
  step_time_advance_amended Gex nBR "random" 3 nTL 0 [nTL] [] [] ⟨[0, 0], [0]⟩
    nTR Dir.E [((nTL, nBL), 0), ((nTL, nTR), 0)] ⟨[], []⟩ EdgeType.s
    Orientation.horizontal 0 (by decide) (by with_unfolding_all rfl)
    (by with_unfolding_all rfl)

/-! ## C7: unmatched signatures in the Monte Carlo fold -/

/-- The pre-populated lookup for the two enumerated paths of `Gex` from the
top-left to the bottom-right corner. -/
def lkEx : Lookup := initPathLookup ((enumerate_all_paths Gex nTL nBR).getD [])

/-- A successful journey result whose signature (a single block edge) does
not occur among the enumerated paths of `Gex`. -/
def strayResult : SimResult :=
  ⟨2, [nTL, nTR, ⟨0, 1, 0, 0⟩], [(EdgeType.b, Orientation.horizontal)], true⟩

/-- Counterexample to C7: a successful journey whose signature is absent
from the enumerated path universe is dropped silently — the loop body of
`analyze_random_strategy_paths` leaves `path_lookup` unchanged and prints
nothing (its `if sig in path_lookup` has no `else`, and no statement inside
the loop produces output), so the journey's contribution disappears without
any report. Only the "does not crash" half of the claim holds. -/
theorem unmatched_signature_silently_dropped_cex :
    strayResult.success = true ∧
    dictGet lkEx (path_signature strayResult.edge_signatures) = none ∧
    recordResult lkEx strayResult = (lkEx, []) := by
  refine ⟨by decide, by decide, by decide⟩

/-- C7 amended: the aggregation step is total (no exception can abort the
batch), but a successful journey with an unmatched signature is skipped
silently: the lookup is returned unchanged and no report is emitted. -/
theorem unmatched_signature_silent_amended (lk : Lookup) (res : SimResult)
    (hs : res.success = true)
    (hnone : dictGet lk (path_signature res.edge_signatures) = none) :
    recordResult lk res = (lk, []) := by
  rw [recordResult, if_pos hs]
  simp only [hnone]

/-- Witness for C7's amended statement on `lkEx` and `strayResult`. -/
theorem unmatched_signature_silent_amended_witness :
    recordResult lkEx strayResult = (lkEx, []) :=
  unmatched_signature_silent_amended lkEx strayResult (by decide) (by decide)

/-! ## C9: termination of the journey loop and the path enumeration -/

/-- Nodes whose measure is at the cap have no valid moves on a built graph. -/
theorem no_valid_moves_of_big (n m : Nat) (sl bl : LenProfile) {w : Node}
    (hM : 2 * n + 2 * m ≤ mNode w + 1) :
    get_valid_moves (build_city_graph n m sl bl).1 w = [] := by
  rcases hvm : get_valid_moves (build_city_graph n m sl bl).1 w
    with _ | ⟨⟨v, d⟩, rest⟩
  · rfl
  · exfalso
    have hmem : (v, d) ∈ get_valid_moves (build_city_graph n m sl bl).1 w := by
      rw [hvm]; exact List.mem_cons_self _ _
    obtain ⟨hbu, _, _⟩ := valid_move_facts hmem
    have := mNode_le_of_inBounds hbu
    omega

/-- Fuel sufficiency for the journey loop: with enough fuel relative to the
current node's measure, the while-loop of `simulate_graph_run` always exits
(arrival or dead-end) and never raises, on any built graph and any
recognized strategy. -/
theorem simAux_ok (n m : Nat) (sl bl : LenProfile) (endNode : Node)
    (strategy : String) (hstrat : strategy ∈ recognizedStrategies) :
    ∀ (fuel : Nat) (cur : Node) (t : Rat) (path : List Node) (sigs : List Sig)
      (offs : OffsetMap) (rng : Rng),
    2 * n + 2 * m ≤ mNode cur + fuel + 1 →
    ∃ res, simAux (build_city_graph n m sl bl).1 endNode strategy (fuel + 1)
      cur t path sigs offs rng = Except.ok (some res)
  | 0, cur, t, path, sigs, offs, rng => by
    intro hM
    by_cases hend : cur = endNode
    · exact ⟨⟨t, path, sigs, true⟩, by rw [simAux, if_pos hend]⟩
    · have hvm := no_valid_moves_of_big n m sl bl (w := cur) (by omega)
      have hch : choose_next_node (build_city_graph n m sl bl).1 cur strategy offs t
          (some endNode) rng = Except.ok (none, offs, rng) := by
        rw [choose_next_node, if_pos hvm]
      exact ⟨⟨t, path, sigs, decide (cur = endNode)⟩,
        by rw [simAux, if_neg hend]; simp only [hch]⟩
  | fuel + 1, cur, t, path, sigs, offs, rng => by
    intro hM
    by_cases hend : cur = endNode
    · exact ⟨⟨t, path, sigs, true⟩, by rw [simAux, if_pos hend]⟩
    · obtain ⟨⟨mv, offs', rng'⟩, hch⟩ :=
        choose_ok_of_recognized (build_city_graph n m sl bl).1 cur strategy offs t
          (some endNode) rng hstrat
      rcases mv with _ | ⟨v, d⟩
      · exact ⟨⟨t, path, sigs, decide (cur = endNode)⟩,
          by rw [simAux, if_neg hend]; simp only [hch]⟩
      · obtain ⟨hmem, md, rng₂, hbmd⟩ := choose_some_inv hch
        have hsigs := sig_isSome_of_valid_move hmem
        rcases Option.isSome_iff_exists.1 hsigs with ⟨⟨et, orient⟩, hsig⟩
        have hMv := valid_move_mNode hmem
        by_cases het : et = EdgeType.s
        · subst het
          obtain ⟨off, hoff⟩ := buildMoveData_covers hbmd hmem hsig
          obtain ⟨res, hres⟩ := simAux_ok n m sl bl endNode strategy hstrat fuel v
            (t + wait_time_to_green t off + 1) (path ++ [v])
            (sigs ++ [(EdgeType.s, orient)]) offs' rng' (by omega)
          refine ⟨res, ?_⟩
          rw [simAux, if_neg hend]
          simp only [hch, hsig, reduceIte, hoff]
          exact hres
        · have hb : et = EdgeType.b := by
            cases et
            · exact absurd rfl het
            · rfl
          subst hb
          obtain ⟨res, hres⟩ := simAux_ok n m sl bl endNode strategy hstrat fuel v (t + 0 + 1) (path ++ [v])
            (sigs ++ [(EdgeType.b, orient)]) offs' rng' (by omega)
          refine ⟨res, ?_⟩
          rw [simAux, if_neg hend]
          simp only [hch, hsig]
          rw [if_neg (by decide : ¬ (EdgeType.b = EdgeType.s))]
          dsimp only
          rw [if_neg (by decide : ¬ (EdgeType.b = EdgeType.s))]
          exact hres

/-- Fuel sufficiency for the DFS of `enumerate_all_paths` on built graphs. -/
theorem enumAux_isSome (n m : Nat) (sl bl : LenProfile) (endNode : Node) :
    ∀ (fuel : Nat) (cur : Node) (path : List Node) (sigs : List Sig),
    2 * n + 2 * m ≤ mNode cur + fuel + 1 →
    (enumAux (build_city_graph n m sl bl).1 endNode (fuel + 1) cur path sigs).isSome
  | 0, cur, path, sigs => by
    intro hM
    by_cases hend : cur = endNode
    · rw [enumAux, if_pos hend]
      rfl
    · rw [enumAux, if_neg hend, no_valid_moves_of_big n m sl bl (w := cur) (by omega)]
      rfl
  | fuel + 1, cur, path, sigs => by
    intro hM
    by_cases hend : cur = endNode
    · rw [enumAux, if_pos hend]
      rfl
    · rw [enumAux, if_neg hend]
      have key : ∀ moves : List (Node × Dir),
          (∀ p ∈ moves, p ∈ get_valid_moves (build_city_graph n m sl bl).1 cur) →
          ∀ path sigs : List _,
          (moves.foldr
            (fun nbd acc => do
              let sg ← get_edge_signature (build_city_graph n m sl bl).1 cur nbd.1
              let first ← enumAux (build_city_graph n m sl bl).1 endNode (fuel + 1)
                nbd.1 (path ++ [nbd.1]) (sigs ++ [sg])
              let rest ← acc
              some (first ++ rest))
            (some [])).isSome := by
        intro moves
        induction moves with
        | nil => intro _ path sigs; rfl
        | cons p rest ihp =>
          intro hsub path sigs
          obtain ⟨v, d⟩ := p
          have hmem := hsub (v, d) (List.mem_cons_self _ _)
          rcases Option.isSome_iff_exists.1 (sig_isSome_of_valid_move hmem)
            with ⟨sg, hsg⟩
          have hMv := valid_move_mNode hmem
          have hrec := enumAux_isSome n m sl bl endNode fuel v (path ++ [v])
            (sigs ++ [sg]) (by omega)
          rcases Option.isSome_iff_exists.1 hrec with ⟨l1, hl1⟩
          have hrest := ihp (fun q hq => hsub q (List.mem_cons_of_mem _ hq)) path sigs
          rcases Option.isSome_iff_exists.1 hrest with ⟨l2, hl2⟩
          rw [List.foldr_cons, hl2]
          simp [hsg, hl1]
      exact key _ (fun p hp => hp) path sigs

/-- The builder creates at least `4*n*m` edges (the crossing edges alone). -/
theorem edgesList_length_ge (n m : Nat) (sl bl : LenProfile) :
    4 * n * m ≤ (edgesList n m sl bl).length := by
  rw [edgesList, List.length_append]
  have hs : (forRange n (fun r => forRange m (fun c => sEdgesAt sl r c))).length
      = n * (m * 4) :=
    length_forRange_const
      (fun r => length_forRange_const (fun c => by simp [sEdgesAt]) m) n
  have he : n * (m * 4) = 4 * n * m := by ring
  omega

/-- C9: on every built graph (with `n, m ≥ 1`) and for every start/end node
pair, the path enumeration completes within its fuel (so the Python DFS
terminates), and the journey loop of `simulate_graph_run` under any
recognized strategy exits within any fuel of at least `2*n + 2*m`
iterations, reaching either the end node or the no-move failure state —
never running forever and never raising. -/
theorem termination_spec (n m : Nat) (sl bl : LenProfile) (G : Graph)
    (s e : Node) (strategy : String) (rng : Rng)
    (hG : G = (build_city_graph n m sl bl).1) (hn : 1 ≤ n) (hm : 1 ≤ m)
    (hstrat : strategy ∈ recognizedStrategies) :
    (∃ l, enumerate_all_paths G s e = some l) ∧
    (∀ fuel, 2 * n + 2 * m ≤ fuel →
      ∃ res, simulate_graph_run G s e strategy rng fuel = Except.ok (some res)) := by
  subst hG
  have hmul : 2 * n + 2 * m ≤ 4 * n * m := by
    have h4 : (2 * n) + (2 * m) ≤ (2 * n) * (2 * m) :=
      add_le_mul (by omega) (by omega)
    have he : (2 * n) * (2 * m) = 4 * n * m := by ring
    omega
  have hE := edgesList_length_ge n m sl bl
  constructor
  · rw [enumerate_all_paths]
    have hedges : ((build_city_graph n m sl bl).1.edges.length)
        = (edgesList n m sl bl).length := rfl
    have h := enumAux_isSome n m sl bl e
      ((build_city_graph n m sl bl).1.edges.length) s [s] []
      (by rw [hedges]; unfold mNode; omega)
    exact Option.isSome_iff_exists.1 h
  · intro fuel hfuel
    rcases fuel with _ | f
    · exact absurd hfuel (by omega)
    · exact simAux_ok n m sl bl e strategy hstrat f s 0 [s] [] [] rng (by unfold mNode; omega)

/-- Witness for C9 on the 1-by-1 grid with the random strategy. -/
theorem termination_spec_witness :
    (∃ l, enumerate_all_paths Gex nTL nBR = some l) ∧
    (∀ fuel, 2 * 1 + 2 * 1 ≤ fuel →
      ∃ res, simulate_graph_run Gex nTL nBR "random" ⟨[0, 0], [0]⟩ fuel =
        Except.ok (some res)) :=
  termination_spec 1 1 lenThree lenOne Gex nTL nBR "random" ⟨[0, 0], [0]⟩ rfl
    (le_refl 1) (le_refl 1) (by decide)

/-! ## C3: every successful journey's signature is enumerated -/

/-- A monotone walk: from `cur`, following valid moves through the listed
nodes and edge signatures, ending at `endNode`, never visiting `endNode`
before the end (exactly the walks the journey loop can produce). -/
inductive ChainFrom (G : Graph) (endNode : Node) : Node → List Node → List Sig → Prop
  | nil : ChainFrom G endNode endNode [] []
  | cons {cur v : Node} {d : Dir} {sg : Sig} {ns : List Node} {ss : List Sig} :
      cur ≠ endNode → (v, d) ∈ get_valid_moves G cur →
      get_edge_signature G cur v = some sg → ChainFrom G endNode v ns ss →
      ChainFrom G endNode cur (v :: ns) (sg :: ss)

/-- Every successful exit of the journey loop determines a monotone walk
from the loop's current node, and the result's node path and signature list
are the accumulators extended along that walk. -/
theorem simAux_chain (G : Graph) (endNode : Node) (strategy : String) :
    ∀ (fuel : Nat) (cur : Node) (t : Rat) (path : List Node) (sigs : List Sig)
      (offs : OffsetMap) (rng : Rng) (res : SimResult),
    simAux G endNode strategy fuel cur t path sigs offs rng = Except.ok (some res) →
    res.success = true →
    ∃ ns ss, res.path_nodes = path ++ ns ∧ res.edge_signatures = sigs ++ ss ∧
      ChainFrom G endNode cur ns ss
  | 0, cur, t, path, sigs, offs, rng, res => by
    intro h hsucc
    by_cases hend : cur = endNode
    · rw [simAux, if_pos hend] at h
      simp only [Except.ok.injEq, Option.some.injEq] at h
      subst h
      exact ⟨[], [], by simp, by simp, hend ▸ ChainFrom.nil⟩
    · rw [simAux, if_neg hend] at h
      simp at h
  | fuel + 1, cur, t, path, sigs, offs, rng, res => by
    intro h hsucc
    by_cases hend : cur = endNode
    · rw [simAux, if_pos hend] at h
      simp only [Except.ok.injEq, Option.some.injEq] at h
      subst h
      exact ⟨[], [], by simp, by simp, hend ▸ ChainFrom.nil⟩
    · rw [simAux, if_neg hend] at h
      rcases hch : choose_next_node G cur strategy offs t (some endNode) rng
        with err | ⟨mv, offs', rng'⟩ <;> simp only [hch] at h
      · simp at h
      · rcases mv with _ | ⟨v, d⟩
        · simp only [Except.ok.injEq, Option.some.injEq] at h
          subst h
          rw [decide_eq_true_iff] at hsucc
          exact absurd hsucc hend
        · dsimp only at h
          rcases hsg : get_edge_signature G cur v with _ | ⟨et, orient⟩ <;>
            simp only [hsg] at h
          · simp at h
          · rcases hoff : (if et = EdgeType.s then omLookup offs' (cur, v) else some 0)
              with _ | off <;> simp only [hoff] at h
            · simp at h
            · obtain ⟨ns', ss', hp, hs2, hchain⟩ :=
                simAux_chain G endNode strategy fuel v
                  (t + (if et = EdgeType.s then wait_time_to_green t off else 0) + 1)
                  (path ++ [v]) (sigs ++ [(et, orient)]) offs' rng' res h hsucc
              have hmem : (v, d) ∈ get_valid_moves G cur := (choose_some_inv hch).1
              refine ⟨v :: ns', (et, orient) :: ss', ?_, ?_,
                ChainFrom.cons hend hmem hsg hchain⟩
              · rw [hp]; simp
              · rw [hs2]; simp

/-- A chain on a built graph raises the measure by exactly its length. -/
theorem chainFrom_mNode {n m : Nat} {sl bl : LenProfile} {endNode : Node} :
    ∀ {cur : Node} {ns : List Node} {ss : List Sig},
    ChainFrom (build_city_graph n m sl bl).1 endNode cur ns ss →
    mNode cur + ns.length = mNode endNode := by
  intro cur ns ss h
  induction h with
  | nil => simp
  | cons hne hmem hsg hch ih =>
    have := valid_move_mNode hmem
    simp only [List.length_cons]
    omega

/-- A nonempty chain forces its end node to be in bounds. -/
theorem chainFrom_end_inBounds {n m : Nat} {sl bl : LenProfile} {endNode : Node} :
    ∀ {cur : Node} {ns : List Node} {ss : List Sig},
    ChainFrom (build_city_graph n m sl bl).1 endNode cur ns ss →
    ns = [] ∨ InBounds n m endNode := by
  intro cur ns ss h
  induction h with
  | nil => exact Or.inl rfl
  | @cons cur' v d sg ns' ss' hne hmem hsg hch ih =>
    right
    rcases ih with hnil | hb
    · subst hnil
      cases hch
      exact (valid_move_facts hmem).2.1
    · exact hb

/-- Inside the DFS fold over the valid moves, a member move's recursive
enumeration succeeded and its results all appear in the folded list. -/
theorem enum_foldr_mem (G : Graph) (endNode : Node) (fuel : Nat) (cur : Node)
    (path : List Node) (sigs : List Sig) (v : Node) (d : Dir) (sg : Sig) :
    ∀ (moves : List (Node × Dir)) (l : List PathRec),
    (v, d) ∈ moves →
    get_edge_signature G cur v = some sg →
    (moves.foldr
      (fun nbd acc => do
        let sg ← get_edge_signature G cur nbd.1
        let first ← enumAux G endNode fuel nbd.1 (path ++ [nbd.1]) (sigs ++ [sg])
        let rest ← acc
        some (first ++ rest))
      (some [])) = some l →
    ∃ l1, enumAux G endNode fuel v (path ++ [v]) (sigs ++ [sg]) = some l1 ∧ l1 ⊆ l
  | [], l, hmem, _, _ => absurd hmem (List.not_mem_nil _)
  | (w, d') :: rest, l, hmem, hsg, hfold => by
    rw [List.foldr_cons] at hfold
    dsimp only at hfold
    rcases hfr : rest.foldr
        (fun nbd acc => do
          let sg ← get_edge_signature G cur nbd.1
          let first ← enumAux G endNode fuel nbd.1 (path ++ [nbd.1]) (sigs ++ [sg])
          let rest ← acc
          some (first ++ rest))
        (some []) with _ | l2' <;> rw [hfr] at hfold
    · rcases hsg' : get_edge_signature G cur w with _ | sg'' <;>
        rw [hsg'] at hfold <;> simp at hfold
    · rcases hsg' : get_edge_signature G cur w with _ | sg'' <;> rw [hsg'] at hfold
      · simp at hfold
      · simp only [Option.bind_eq_bind, Option.some_bind'] at hfold
        rcases hfe : enumAux G endNode fuel w (path ++ [w]) (sigs ++ [sg''])
          with _ | l1' <;> rw [hfe] at hfold
        · simp at hfold
        · simp only [Option.bind_eq_bind, Option.some_bind',
            Option.some.injEq] at hfold
          subst hfold
          rcases List.mem_cons.1 hmem with heq | htail
          · have hw : v = w ∧ d = d' := by
              constructor
              · exact congrArg Prod.fst heq
              · exact congrArg Prod.snd heq
            obtain ⟨rfl, rfl⟩ := hw
            rw [hsg'] at hsg
            have hsgeq : sg'' = sg := Option.some.inj hsg
            subst hsgeq
            exact ⟨l1', hfe, List.subset_append_left _ _⟩
          · obtain ⟨l1, hl1, hsub⟩ := enum_foldr_mem G endNode fuel cur path sigs
              v d sg rest l2' htail hsg hfr
            exact ⟨l1, hl1, hsub.trans (List.subset_append_right _ _)⟩

/-- Completeness of the DFS: every chain from the current node is reported,
appended to the accumulated path and signature prefixes, provided the fuel
exceeds the chain length. -/
theorem enumAux_complete (G : Graph) (endNode : Node) :
    ∀ {ns : List Node} {ss : List Sig} {cur : Node},
    ChainFrom G endNode cur ns ss →
    ∀ (fuel : Nat) (path : List Node) (sigs : List Sig) (l : List PathRec),
    ns.length < fuel →
    enumAux G endNode fuel cur path sigs = some l →
    (⟨path ++ ns, sigs ++ ss⟩ : PathRec) ∈ l := by
  intro ns ss cur hchain
  induction hchain with
  | nil =>
    intro fuel path sigs l hlen henum
    rcases fuel with _ | f
    · exact absurd hlen (by simp)
    · rw [enumAux, if_pos rfl] at henum
      simp only [Option.some.injEq] at henum
      subst henum
      simp
  | @cons cur' v d sg ns' ss' hne hmem hsg hch ih =>
    intro fuel path sigs l hlen henum
    rcases fuel with _ | f
    · exact absurd hlen (by simp)
    · rw [enumAux, if_neg hne] at henum
      obtain ⟨l1, hfe, hsub⟩ := enum_foldr_mem G endNode f cur' path sigs v d sg
        (get_valid_moves G cur') l hmem hsg henum
      have hmem2 := ih f (path ++ [v]) (sigs ++ [sg]) l1
        (by simp only [List.length_cons] at hlen; omega) hfe
      have hpn : (path ++ [v]) ++ ns' = path ++ v :: ns' := by simp
      have hsn : (sigs ++ [sg]) ++ ss' = sigs ++ sg :: ss' := by simp
      rw [hpn, hsn] at hmem2
      exact hsub hmem2

/-- C3: on every built graph, every successful journey result's signature
sequence (and node path) is that of some path returned by
`enumerate_all_paths` on the same graph, start and end. -/
theorem sim_signature_in_enumeration (n m : Nat) (sl bl : LenProfile)
    (G : Graph) (s e : Node) (strategy : String) (rng : Rng) (fuel : Nat)
    (res : SimResult)
    (hG : G = (build_city_graph n m sl bl).1) (hn : 1 ≤ n) (hm : 1 ≤ m)
    (hsim : simulate_graph_run G s e strategy rng fuel = Except.ok (some res))
    (hsucc : res.success = true) :
    ∃ l, enumerate_all_paths G s e = some l ∧
      ∃ p ∈ l, p.edges = res.edge_signatures ∧ p.nodes = res.path_nodes := by
  subst hG
  obtain ⟨ns, ss, hp, hs2, hchain⟩ := simAux_chain (build_city_graph n m sl bl).1
    e strategy fuel s 0 [s] [] [] rng res hsim hsucc
  have hmul : 2 * n + 2 * m ≤ 4 * n * m := by
    have h4 : (2 * n) + (2 * m) ≤ (2 * n) * (2 * m) :=
      add_le_mul (by omega) (by omega)
    have he : (2 * n) * (2 * m) = 4 * n * m := by ring
    omega
  have hE := edgesList_length_ge n m sl bl
  have hedges : ((build_city_graph n m sl bl).1.edges.length)
      = (edgesList n m sl bl).length := rfl
  have hsome := enumAux_isSome n m sl bl e
    ((build_city_graph n m sl bl).1.edges.length) s [s] []
    (by rw [hedges]; unfold mNode; omega)
  rcases Option.isSome_iff_exists.1 hsome with ⟨l, hl⟩
  have hlen : ns.length < (build_city_graph n m sl bl).1.edges.length + 1 := by
    have hM := chainFrom_mNode hchain
    rcases chainFrom_end_inBounds hchain with hnil | hb
    · subst hnil
      simp only [List.length_nil]
      omega
    · have := mNode_le_of_inBounds hb
      rw [hedges]
      omega
  have hmem := enumAux_complete (build_city_graph n m sl bl).1 e hchain
    ((build_city_graph n m sl bl).1.edges.length + 1) [s] [] l hlen hl
  refine ⟨l, hl, ⟨[s] ++ ns, [] ++ ss⟩, hmem, ?_, ?_⟩
  · rw [hs2]
  · rw [hp]

/-- Witness for C3: the one-step successful journey on `Gex` from the
top-left to the top-right corner under the random strategy. -/
theorem sim_signature_in_enumeration_witness :
    ∃ l, enumerate_all_paths Gex nTL nTR = some l ∧
      ∃ p ∈ l, p.edges = [(EdgeType.s, Orientation.horizontal)] ∧
        p.nodes = [nTL, nTR] :=
  sim_signature_in_enumeration 1 1 lenThree lenOne Gex nTL nTR "random"
    ⟨[0, 0], [0]⟩ 4 ⟨1, [nTL, nTR], [(EdgeType.s, Orientation.horizontal)], true⟩
    rfl (le_refl 1) (le_refl 1) (by with_unfolding_all rfl) rfl

end StreetSim
